import Mathlib

/-!
Verification of the account pool, dispatcher, transport and transformer layers of
the `antigravity` reverse proxy, as a shallow embedding of the TypeScript source.

Conventions of the embedding:
* timestamps (`Date.now()`, expiry dates, cooldown deadlines) are `Int`,
  milliseconds since the epoch;
* JavaScript `number` arithmetic used in scoring and quota fractions is embedded
  as `ℚ` (exact rational arithmetic standing in for IEEE doubles);
* a field that can be `undefined` in TypeScript is an `Option`;
* a JS `Map` is an association list in insertion order (set = update-or-append);
* stateful methods become pure functions from the old state to the new state;
  `Date.now()` becomes an explicit `now` argument.
-/

namespace Antigravity

/-! ## Account data model — src/accounts/interfaces, accounts.service.ts -/

inductive AccountStatus
  | ready
  | cooldown
  | error
deriving DecidableEq, Repr

structure AccountCredential where
  email : String
  accessToken : String
  refreshToken : String
  expiryDate : Int
deriving DecidableEq, Repr

structure AccountState where
  id : String
  credential : AccountCredential
  status : AccountStatus
  cooldownUntil : Option Int := none
  lastUsed : Option Int := none
  requestCount : Nat := 0
  errorCount : Nat := 0
  consecutiveErrors : Nat := 0
deriving DecidableEq, Repr

/-- `AccountsService.markCooldown` (accounts.service.ts:198-214) on a single
account state.  `base` is `COOLDOWN_DURATION_MS`, `now` is `Date.now()`. -/
def markCooldown (base now : Int) (s : AccountState) : AccountState :=
  let ce := s.consecutiveErrors + 1
  let backoffFactor : Int := 2 ^ (min (ce - 1) 6)
  { s with
    status := .cooldown
    consecutiveErrors := ce
    cooldownUntil := some (now + base * backoffFactor)
    errorCount := s.errorCount + 1 }

/-- `AccountsService.markSuccess` (accounts.service.ts:227-238). -/
def markSuccess (now : Int) (s : AccountState) : AccountState :=
  let s := { s with
    requestCount := s.requestCount + 1
    lastUsed := some now
    consecutiveErrors := 0 }
  if s.status = .error ∨ s.status = .cooldown then
    { s with status := .ready, cooldownUntil := none }
  else s

/-- `AccountsService.markError` (accounts.service.ts:216-225). -/
def markError (s : AccountState) : AccountState :=
  { s with status := .error, errorCount := s.errorCount + 1 }

/-- k consecutive `markCooldown` calls, the i-th at time `ts[i]`. -/
def markCooldownSeq (base : Int) (s : AccountState) (ts : List Int) : AccountState :=
  ts.foldl (fun a t => markCooldown base t a) s

/-- A fresh account fixture used by concrete witnesses/counterexamples. -/
def freshAccount (id email : String) : AccountState :=
  { id := id
    credential := { email := email, accessToken := "at", refreshToken := "rt", expiryDate := 0 }
    status := .ready }

/-! ## Quota tracker — quota.service.ts (`QuotaService`)

`remainingFraction` and the cached `quota` are JS numbers; they are embedded as
`ℚ`.  `resetTime` and `lastFetchedAt` are carried by the source but no claim
mentions them, so the cache entry keeps only the quota fraction. -/

inductive QuotaEntryStatus
  | available
  | exhausted
deriving DecidableEq, Repr

structure QuotaCacheEntry where
  quota : ℚ
deriving DecidableEq, Repr

/-- The nested `quotaCache : Map<accountId, Map<modelName, entry>>`, embedded as
association lists in insertion order. -/
abbrev QuotaCache := List (String × List (String × QuotaCacheEntry))

/-- JS `Map.set`: overwrite the existing key in place, else append. -/
def mapSet {β : Type} (k : String) (v : β) : List (String × β) → List (String × β)
  | [] => [(k, v)]
  | (k', v') :: rest => if k' = k then (k', v) :: rest else (k', v') :: mapSet k v rest

/-- Status classification in `QuotaService.getQuotaStatus`:
`entry.quota > this.quotaThreshold ? 'available' : 'exhausted'`. -/
def quotaStatusOf (threshold : ℚ) (e : QuotaCacheEntry) : QuotaEntryStatus :=
  if e.quota > threshold then .available else .exhausted

structure ModelQuotaStatus where
  modelName : String
  quota : ℚ
  status : QuotaEntryStatus
deriving DecidableEq, Repr

/-- The `models` list that `QuotaService.getQuotaStatus` reports for one account.
The source sorts it by model name; model names are unique map keys, so the
`find` the selector performs on it is insensitive to that sort and it is
omitted here. -/
def getQuotaStatusModels (threshold : ℚ) (cache : QuotaCache) (accountId : String) :
    List ModelQuotaStatus :=
  match cache.lookup accountId with
  | none => []
  | some mc => mc.map fun p => ⟨p.1, p.2.quota, quotaStatusOf threshold p.2⟩

/-- The upstream `quotaInfo` of one model from `:fetchAvailableModels`. -/
structure UQuotaInfo where
  remainingFraction : Option ℚ
deriving DecidableEq, Repr

structure UModelInfo where
  quotaInfo : Option UQuotaInfo
deriving DecidableEq, Repr

/-- Loop body of `QuotaService.updateQuotasFromModels`: a model carrying a
`quotaInfo` is upserted with `quota := quotaInfo.remainingFraction ?? 1.0`;
a model without one is skipped. -/
def upsertModelQuota (mc : List (String × QuotaCacheEntry)) (p : String × UModelInfo) :
    List (String × QuotaCacheEntry) :=
  match p.2.quotaInfo with
  | some qi => mapSet p.1 ⟨qi.remainingFraction.getD 1⟩ mc
  | none => mc

/-- `QuotaService.updateQuotasFromModels`: for each returned model carrying a
`quotaInfo`, upsert its entry into the account's cache map (created on first
use). -/
def updateQuotasFromModels (cache : QuotaCache) (accountId : String)
    (models : List (String × UModelInfo)) : QuotaCache :=
  let accountCache := (cache.lookup accountId).getD []
  let accountCache' := models.foldl upsertModelQuota accountCache
  mapSet accountId accountCache' cache

/-! ## Selector — `AccountsService.getReadyAccounts` / `getNextAccount` -/

/-- Lazy cooldown expiry performed by `getReadyAccounts` on each account:
`status === 'cooldown' && cooldownUntil && cooldownUntil < now` (note the JS
truthiness test on the timestamp, hence `c ≠ 0`, and the strict `<`). -/
def lazyExpire (now : Int) (s : AccountState) : AccountState :=
  match s.cooldownUntil with
  | some c =>
    if s.status = .cooldown ∧ c ≠ 0 ∧ c < now then
      { s with status := .ready, cooldownUntil := none }
    else s
  | none => s

def getReadyAccounts (now : Int) (pool : List AccountState) : List AccountState :=
  (pool.map (lazyExpire now)).filter fun s => s.status == .ready

/-- The quota snapshot and scoring threshold the selector consults, plus the
single `Date.now()` of the call (the source reads the clock more than once in
one `getNextAccount` call; the embedding uses one instant). -/
structure SelectorEnv where
  quota : QuotaCache
  threshold : ℚ
  now : Int

/-- Quota component of the selector score: only when a model name is given and
`getQuotaStatus` has an entry for it — `+ quota·1000`, and `− 5000` more when
the entry is exhausted. -/
def quotaComponent (env : SelectorEnv) (accountId : String) (modelName : Option String) : ℚ :=
  match modelName with
  | none => 0
  | some m =>
    match (getQuotaStatusModels env.threshold env.quota accountId).find?
        (fun q => q.modelName == m) with
    | none => 0
    | some aq => aq.quota * 1000 + (if aq.status = .exhausted then -5000 else 0)

/-- Recency component: `+ min(secondsSinceLastUse, 3600)` when used before,
`+4000` when never used (`if (state.lastUsed)` — a 0 timestamp is falsy). -/
def recencyComponent (now : Int) (s : AccountState) : ℚ :=
  match s.lastUsed with
  | some t => if t ≠ 0 then min (((now - t : Int) : ℚ) / 1000) 3600 else 4000
  | none => 4000

/-- The per-account score in `AccountsService.getNextAccount`
(accounts.service.ts:137-170). -/
def score (env : SelectorEnv) (modelName : Option String) (s : AccountState) : ℚ :=
  quotaComponent env s.id modelName - s.requestCount * (1/10) + recencyComponent env.now s

/-- `sort((a, b) => b.score - a.score)` is a stable descending sort and the code
takes element 0: the first element attaining the maximal score. -/
def selectBest (f : AccountState → ℚ) : List AccountState → Option AccountState
  | [] => none
  | a :: rest =>
    match selectBest f rest with
    | none => some a
    | some b => if f b > f a then some b else some a

/-- `AccountsService.getNextAccount` (accounts.service.ts:129-181). -/
def getNextAccount (env : SelectorEnv) (pool : List AccountState)
    (modelName : Option String) : Option AccountState :=
  selectBest (score env modelName) (getReadyAccounts env.now pool)

/-! ## Dispatcher — `AntigravityService.chatCompletion` retry loop

The upstream call is abstracted by an oracle from the chosen account id to the
outcome of its request; the loop body is translated from
antigravity.service.ts:59-115. -/

inductive UpstreamOutcome
  | ok
  | rateLimited
  | failed
deriving DecidableEq, Repr

inductive DispatchOutcome
  | success (accountId : String)
  | allRetriesExhausted
  | noReadyAccounts (retryAfter : Int)
  | propagated (accountId : String)
deriving DecidableEq, Repr

structure DispatchResult where
  tried : List String
  outcome : DispatchOutcome
  pool : List AccountState
deriving DecidableEq, Repr

/-- Apply an account mutation through the store, by id. -/
def poolMap (id : String) (f : AccountState → AccountState)
    (pool : List AccountState) : List AccountState :=
  pool.map fun s => if s.id = id then f s else s

/-- `AccountsService.getEarliestCooldownEnd`: minimum cooldown deadline over
accounts in cooldown with a (truthy) deadline. -/
def getEarliestCooldownEnd (pool : List AccountState) : Option Int :=
  let cs := pool.filterMap fun s =>
    match s.cooldownUntil with
    | some c => if s.status = .cooldown ∧ c ≠ 0 then some c else none
    | none => none
  match cs with
  | [] => none
  | c :: rest => some (rest.foldl min c)

/-- `Retry-After` computation: `ceil((earliestCooldown − now)/1000)`, else 60. -/
def retryAfterSeconds (now : Int) (pool : List AccountState) : Int :=
  match getEarliestCooldownEnd pool with
  | some t => ⌈(((t - now : Int) : ℚ) / 1000)⌉
  | none => 60

/-- One pass of the `chatCompletion` retry loop; `fuel` is the remaining
attempts.  Note the selector call: the source invokes `getNextAccount()` with
no argument (antigravity.service.ts:60), embedded as model `none`. -/
def dispatchGo (base : Int) (env : SelectorEnv) (upstream : String → UpstreamOutcome) :
    Nat → List AccountState → List String → DispatchResult
  | 0, pool, tried => ⟨tried.reverse, .allRetriesExhausted, pool⟩
  | fuel + 1, pool, tried =>
    match getNextAccount env pool none with
    | none => ⟨tried.reverse, .noReadyAccounts (retryAfterSeconds env.now pool), pool⟩
    | some a =>
      match upstream a.id with
      | .ok => ⟨(a.id :: tried).reverse, .success a.id,
          poolMap a.id (markSuccess env.now) pool⟩
      | .rateLimited =>
          dispatchGo base env upstream fuel
            (poolMap a.id (markCooldown base env.now) pool) (a.id :: tried)
      | .failed => ⟨(a.id :: tried).reverse, .propagated a.id, pool⟩

/-- `AntigravityService.chatCompletion`: `maxAttempts = min(maxRetryAccounts,
accountCount)`, then the retry loop. -/
def chatCompletionDispatch (base : Int) (maxRetryAccounts : Nat) (env : SelectorEnv)
    (pool : List AccountState) (upstream : String → UpstreamOutcome) : DispatchResult :=
  dispatchGo base env upstream (min maxRetryAccounts pool.length) pool []

/-! ## `AccountsService.addAccount` (accounts.service.ts:240-282)

The store's `emailToIdMap` maps each email to the id it was inserted under;
emails are unique in the pool, so the lookup is the first account with the
credential's email.  Mutating the found state in place becomes an id-keyed map
over the pool. -/

structure AddAccountResult where
  pool : List AccountState
  id : String
  accountNumber : Nat
  isNew : Bool
deriving DecidableEq, Repr

/-- The in-place update `addAccount` applies to an existing account with the
same email: replace access/refresh token and expiry, reset status to `ready`
and `errorCount` to 0.  (The source does not touch `consecutiveErrors`,
`requestCount`, `lastUsed`, `cooldownUntil` or the stored `projectId`.) -/
def refreshCredential (c : AccountCredential) (s : AccountState) : AccountState :=
  { s with
    credential := { s.credential with
      accessToken := c.accessToken
      refreshToken := c.refreshToken
      expiryDate := c.expiryDate }
    status := .ready
    errorCount := 0 }

def addAccount (pool : List AccountState) (c : AccountCredential) : AddAccountResult :=
  match pool.find? (fun s => s.credential.email == c.email) with
  | some existing =>
    { pool := pool.map fun s => if s.id = existing.id then refreshCredential c s else s
      id := existing.id
      accountNumber := ((pool.findIdx? (fun s => s.id == existing.id)).getD 0) + 1
      isNew := false }
  | none =>
    let accountNumber := pool.length + 1
    let id := s!"account-{accountNumber}"
    { pool := pool ++ [{ id := id, credential := c, status := .ready }]
      id := id
      accountNumber := accountNumber
      isNew := true }

/-- Fixture for C4: an account that has accumulated consecutive errors. -/
def c4Acct : AccountState :=
  { freshAccount "account-1" "a@x.com" with consecutiveErrors := 2, errorCount := 2 }

def c4Pool : List AccountState := [c4Acct]

def c4Cred : AccountCredential :=
  { email := "a@x.com", accessToken := "newAT", refreshToken := "newRT", expiryDate := 99 }

/-- Two-account fixture: both fresh/never used (equal usage and recency). -/
def c2Pool : List AccountState :=
  [freshAccount "account-1" "a1@x.com", freshAccount "account-2" "a2@x.com"]

/-- Quota cache fixture: for model `m`, account-1 is exhausted (0 remaining),
account-2 has full quota. -/
def c2Quota : QuotaCache :=
  [("account-1", [("m", ⟨0⟩)]), ("account-2", [("m", ⟨1⟩)])]

def c2Env : SelectorEnv := ⟨c2Quota, 1/100, 1000⟩

/-! ## Schema cleaning — `cleanSchemaForClaude` (src/common/utils/schema.util.ts) -/

inductive Json where
  | null
  | bool (b : Bool)
  | num (q : ℚ)
  | str (s : String)
  | arr (xs : List Json)
  | obj (kvs : List (String × Json))
deriving Repr

def SCHEMA_KEYS_TO_REMOVE : List String :=
  ["$schema", "additionalProperties", "strict", "default", "title", "$id", "$ref"]

mutual

/-- `cleanSchemaForClaude` on an embedded JSON value.  The source takes an
object (a `Record<string, unknown>`); it is only ever applied to schema
objects, so non-objects are returned unchanged here. -/
def cleanSchema : Json → Json
  | .obj kvs => .obj (cleanEntries kvs)
  | j => j

/-- Key deletion fused with the `properties` rewrite: the source `delete`s the
removed keys from the shallow copy and then rewrites the values of
`cleaned.properties`; `"properties"` is not among the removed keys, so the
fused single pass computes the same object. -/
def cleanEntries : List (String × Json) → List (String × Json)
  | [] => []
  | (k, v) :: rest =>
    if SCHEMA_KEYS_TO_REMOVE.contains k then cleanEntries rest
    else (k, if k = "properties" then cleanProps v else v) :: cleanEntries rest

/-- The loop over `cleaned.properties`' own keys (only run when `properties`
is an object). -/
def cleanProps : Json → Json
  | .obj props => .obj (cleanPropEntries props)
  | j => j

def cleanPropEntries : List (String × Json) → List (String × Json)
  | [] => []
  | (k, v) :: rest => (k, cleanPropValue v) :: cleanPropEntries rest

/-- `typeof props[propKey] === 'object'` guards the recursive call; property
values that are JSON objects are cleaned recursively, others kept.  (JS also
classifies `null` and arrays as `'object'` and would mangle them through the
spread; schema property values are objects, and such values pass through
unchanged here.) -/
def cleanPropValue : Json → Json
  | .obj o => .obj (cleanEntries o)
  | j => j

end

mutual

/-- Does `key` occur as an object key anywhere in the JSON value? -/
def containsKeyDeep (key : String) : Json → Bool
  | .obj kvs => containsKeyDeepEntries key kvs
  | .arr xs => containsKeyDeepList key xs
  | _ => false

def containsKeyDeepEntries (key : String) : List (String × Json) → Bool
  | [] => false
  | (k, v) :: rest =>
    (k == key) || containsKeyDeep key v || containsKeyDeepEntries key rest

def containsKeyDeepList (key : String) : List Json → Bool
  | [] => false
  | x :: rest => containsKeyDeep key x || containsKeyDeepList key rest

end

mutual

/-- No removed key occurs at the top level, nor — recursively — at any level
reached through `properties` chains.  (Keys below any other key, such as
`items`, are not constrained: the source does not descend into them.) -/
def keysCleanAlongProps : Json → Bool
  | .obj kvs => entriesCleanAlongProps kvs
  | _ => true

def entriesCleanAlongProps : List (String × Json) → Bool
  | [] => true
  | (k, v) :: rest =>
    !(SCHEMA_KEYS_TO_REMOVE.contains k) &&
    (if k = "properties" then propsValuesClean v else true) &&
    entriesCleanAlongProps rest

def propsValuesClean : Json → Bool
  | .obj props => propsEntriesClean props
  | _ => true

def propsEntriesClean : List (String × Json) → Bool
  | [] => true
  | (_, v) :: rest => propValueClean v && propsEntriesClean rest

def propValueClean : Json → Bool
  | .obj o => entriesCleanAlongProps o
  | _ => true

end

/-! ## Upstream transport — `AntigravityService.makeRequest`
(antigravity.service.ts:680-740)

The HTTP world is abstracted by two oracles from the base-URL index to the
outcome of a POST: `first` for the initial attempt and `retry` for the single
post-refresh retry the 401 path performs (a failing token refresh collapses
into a non-`ok` retry outcome, as both are caught by the same `catch`). -/

inductive ReqOutcome
  | ok
  | http (status : Nat)
  | netErr
deriving DecidableEq, Repr

inductive MROutcome
  /-- `return response.data` after the attempt on this base URL index. -/
  | success (urlIdx : Nat)
  /-- 429: `throw this.createHttpException(axiosError)` at once. -/
  | rateLimited
  /-- 401 whose refresh-and-retry also failed: HttpException 401. -/
  | authFailed
  /-- failure at the loop's final iteration: `createHttpException` carrying the
  failing response's status, or 500 when there was no response. -/
  | lastError (status : Nat)
  /-- fell out of the loop: `'All API endpoints failed'`, HTTP 502. -/
  | allFailed502
deriving DecidableEq, Repr

structure MRResult where
  outcome : MROutcome
  /-- base-URL indices attempted, in order (the 401 retry re-uses its URL and
  is not listed separately). -/
  trace : List Nat
  /-- `currentBaseUrlIndex` after the call. -/
  cursor : Nat
deriving DecidableEq, Repr

/-- The loop of `makeRequest`; `fuel` is the number of remaining iterations
(`n - i`), `i` the loop index, `cursor` the current `currentBaseUrlIndex`.
Note that the attempted URL is `(cursor + i) % n` and the cursor itself is
advanced on every failure that is not a 429 or a 401, so cursor and loop index
advance together. -/
def makeRequestGo (n : Nat) (first retry : Nat → ReqOutcome) :
    Nat → Nat → Nat → MRResult
  | 0, _, cursor => ⟨.allFailed502, [], cursor⟩
  | fuel + 1, i, cursor =>
    let u := (cursor + i) % n
    match first u with
    | .ok => ⟨.success u, [u], cursor⟩
    | .netErr =>
      if i = n - 1 then ⟨.lastError 500, [u], cursor⟩
      else
        let r := makeRequestGo n first retry fuel (i + 1) ((cursor + 1) % n)
        ⟨r.outcome, u :: r.trace, r.cursor⟩
    | .http s =>
      if s = 429 then ⟨.rateLimited, [u], cursor⟩
      else if s = 401 then
        match retry u with
        | .ok => ⟨.success u, [u], cursor⟩
        | _ => ⟨.authFailed, [u], cursor⟩
      else if i = n - 1 then ⟨.lastError s, [u], cursor⟩
      else
        let r := makeRequestGo n first retry fuel (i + 1) ((cursor + 1) % n)
        ⟨r.outcome, u :: r.trace, r.cursor⟩

/-- `AntigravityService.makeRequest` over `n = BASE_URLS.length` base URLs,
starting from the rotating `cursor`. -/
def makeRequest (n cursor : Nat) (first retry : Nat → ReqOutcome) : MRResult :=
  makeRequestGo n first retry n 0 cursor

/-! ## OpenAI transformer — transformer.service.ts (`TransformerService`)

Upstream response parts carry `text`/`thought`/`thoughtSignature`/`functionCall`
independently (the source tests each field separately).  A JS field that is
absent or `''` is falsy; absent strings are embedded as `""` where only
truthiness is ever tested.  `functionCall.args` is only ever observed through
`JSON.stringify(args || {})` — identically in the unary and streaming paths —
so a part carries the serialized form `argsJson` directly. -/

structure FuncCall where
  name : String
  argsJson : String
  id : Option String
deriving DecidableEq, Repr

structure RPart where
  text : String := ""
  thought : Bool := false
  thoughtSignature : String := ""
  functionCall : Option FuncCall := none
deriving DecidableEq, Repr

/-- A produced tool call; `id = none` stands for the randomly generated
`call_<24 hex>` fallback when the upstream part has no id, and the constant
`type: 'function'` field is left implicit. -/
structure ToolCallResponse where
  id : Option String
  name : String
  argsJson : String
deriving DecidableEq, Repr

def mkToolCall (fc : FuncCall) : ToolCallResponse := ⟨fc.id, fc.name, fc.argsJson⟩

structure ExtractResult where
  content : String
  reasoningContent : String
  toolCalls : List ToolCallResponse
deriving DecidableEq, Repr

/-- Per-part step of `TransformerService.extractContent`
(transformer.service.ts:354-385). -/
def extractStep (acc : ExtractResult) (p : RPart) : ExtractResult :=
  let acc :=
    if p.text ≠ "" then
      if p.thought then { acc with reasoningContent := acc.reasoningContent ++ p.text }
      else { acc with content := acc.content ++ p.text }
    else acc
  match p.functionCall with
  | some fc => { acc with toolCalls := acc.toolCalls ++ [mkToolCall fc] }
  | none => acc

def extractContent (parts : List RPart) : ExtractResult :=
  parts.foldl extractStep ⟨"", "", []⟩

structure ExtractStreamResult where
  content : String
  reasoningContent : String
  thoughtSignature : String
  toolCalls : List ToolCallResponse
deriving DecidableEq, Repr

/-- Per-part step of `TransformerService.extractStreamContent`
(transformer.service.ts:587-623): as `extractContent` plus the last seen
`thoughtSignature`. -/
def extractStreamStep (acc : ExtractStreamResult) (p : RPart) : ExtractStreamResult :=
  let acc :=
    if p.text ≠ "" then
      if p.thought then { acc with reasoningContent := acc.reasoningContent ++ p.text }
      else { acc with content := acc.content ++ p.text }
    else acc
  let acc :=
    if p.thoughtSignature ≠ "" then { acc with thoughtSignature := p.thoughtSignature }
    else acc
  match p.functionCall with
  | some fc => { acc with toolCalls := acc.toolCalls ++ [mkToolCall fc] }
  | none => acc

def extractStreamContent (parts : List RPart) : ExtractStreamResult :=
  parts.foldl extractStreamStep ⟨"", "", "", []⟩

structure UsageMetadata where
  promptTokenCount : Nat
  candidatesTokenCount : Nat
  totalTokenCount : Nat
deriving DecidableEq, Repr

structure UCandidate where
  parts : List RPart := []
  finishReason : Option String := none
deriving DecidableEq, Repr

/-- One parsed upstream stream chunk (`AntigravityStreamChunk.response`):
`candidate` is `response.candidates[0]`, absent body fields default like the
source's `?.`/`|| []` accesses. -/
structure UChunk where
  candidate : Option UCandidate := none
  usageMetadata : Option UsageMetadata := none
deriving DecidableEq, Repr

/-- `chunk.response?.usageMetadata && usageMetadata.candidatesTokenCount > 0`. -/
def chunkHasUsage (c : UChunk) : Bool :=
  match c.usageMetadata with
  | some u => u.candidatesTokenCount != 0
  | none => false

/-- `TransformerService.mapFinishReason`. -/
def mapFinishReason : Option String → String
  | some "STOP" => "stop"
  | some "MAX_TOKENS" => "length"
  | some "SAFETY" => "content_filter"
  | some "RECITATION" => "content_filter"
  | _ => "stop"

/-- The OpenAI stream accumulator (`StreamAccumulator`,
transformer.service.ts:36-45); `toolCalls` is the JS `Map<number,
ToolCallResponse>` as an association list in insertion order. -/
structure StreamAccumulator where
  reasoningContent : String
  thoughtSignature : String
  textContent : String
  toolCalls : List (Nat × ToolCallResponse)
  toolIdx : Nat
  hasToolCalls : Bool
  isComplete : Bool
  accumulatedFinishReason : Option String
deriving DecidableEq, Repr

def createStreamAccumulator : StreamAccumulator := ⟨"", "", "", [], 0, false, false, none⟩

def natMapGet (m : List (Nat × ToolCallResponse)) (k : Nat) : Option ToolCallResponse :=
  (m.find? (fun p => p.1 == k)).map (fun p => p.2)

def natMapSet (k : Nat) (v : ToolCallResponse) :
    List (Nat × ToolCallResponse) → List (Nat × ToolCallResponse)
  | [] => [(k, v)]
  | (k', v') :: rest => if k' = k then (k', v) :: rest else (k', v') :: natMapSet k v rest

/-- The body of the `for (const tc of toolCalls)` loop
(transformer.service.ts:471-479): look up the entry at `toolIdx` — appending
the arguments when found, inserting `tc` otherwise — then increment `toolIdx`. -/
def accumulateToolCall (acc : StreamAccumulator) (tc : ToolCallResponse) : StreamAccumulator :=
  let m :=
    match natMapGet acc.toolCalls acc.toolIdx with
    | some existing =>
      natMapSet acc.toolIdx { existing with argsJson := existing.argsJson ++ tc.argsJson }
        acc.toolCalls
    | none => natMapSet acc.toolIdx tc acc.toolCalls
  { acc with toolCalls := m, toolIdx := acc.toolIdx + 1 }

/-- One entry of `delta.tool_calls`; the constant `type: 'function'` is left
implicit. -/
structure ToolCallDelta where
  index : Nat
  id : Option String
  name : String
  argsJson : String
deriving DecidableEq, Repr

/-- `toolCalls.map((tc, i) => ({index: accumulator.toolIdx - toolCalls.length
+ i, …}))` with the start index passed explicitly. -/
def mkToolDeltas (startIdx : Nat) : List ToolCallResponse → List ToolCallDelta
  | [] => []
  | tc :: rest => ⟨startIdx, tc.id, tc.name, tc.argsJson⟩ :: mkToolDeltas (startIdx + 1) rest

structure ChunkDelta where
  role : Option String := none
  content : Option String := none
  reasoningContent : Option String := none
  toolCalls : List ToolCallDelta := []
deriving DecidableEq, Repr

/-- An emitted OpenAI stream chunk (id/object/created/model are request
constants and omitted). -/
structure OChunk where
  delta : ChunkDelta
  finishReason : Option String
  usage : Option UsageMetadata
deriving DecidableEq, Repr

/-- `TransformerService.determineFinalFinishReason`. -/
def determineFinalFinishReason (acc : StreamAccumulator) : String :=
  if acc.hasToolCalls then "tool_calls"
  else if acc.accumulatedFinishReason = some "length" then "length"
  else if acc.accumulatedFinishReason = some "content_filter" then "content_filter"
  else "stop"

/-- Lines 463-480 of transformer.service.ts: fold the chunk's extracted
content into the accumulator (text, reasoning, thought signature, then the
tool-call loop, which also flags `hasToolCalls` and pre-sets the accumulated
finish reason to `tool_calls`). -/
def accumulateChunkText (ex : ExtractStreamResult) (acc : StreamAccumulator) :
    StreamAccumulator :=
  let acc :=
    if ex.content ≠ "" then { acc with textContent := acc.textContent ++ ex.content } else acc
  let acc :=
    if ex.reasoningContent ≠ "" then
      { acc with reasoningContent := acc.reasoningContent ++ ex.reasoningContent }
    else acc
  if ex.thoughtSignature ≠ "" then { acc with thoughtSignature := ex.thoughtSignature }
  else acc

def accumulateChunk (ex : ExtractStreamResult) (acc : StreamAccumulator) : StreamAccumulator :=
  if ex.toolCalls ≠ [] then
    ex.toolCalls.foldl accumulateToolCall
      { accumulateChunkText ex acc with
        hasToolCalls := true
        accumulatedFinishReason := some "tool_calls" }
  else accumulateChunkText ex acc

/-- Lines 482-487: a chunk-level finish reason is recorded (mapped) only when
none has been accumulated yet. -/
def applyChunkFinishReason (finishReason : Option String) (acc : StreamAccumulator) :
    StreamAccumulator :=
  match finishReason with
  | some r =>
    if acc.accumulatedFinishReason = none then
      { acc with accumulatedFinishReason := some (mapFinishReason (some r)) }
    else acc
  | none => acc

/-- Lines 489-502: the outgoing delta for this chunk, built from the extracted
content and the post-accumulation `toolIdx`. -/
def buildDelta (isFirst : Bool) (ex : ExtractStreamResult) (acc : StreamAccumulator) :
    ChunkDelta :=
  { role := if isFirst then some "assistant" else none
    content := if ex.content ≠ "" then some ex.content else none
    reasoningContent := if ex.reasoningContent ≠ "" then some ex.reasoningContent else none
    toolCalls :=
      if ex.toolCalls ≠ [] then mkToolDeltas (acc.toolIdx - ex.toolCalls.length) ex.toolCalls
      else [] }

/-- `TransformerService.transformStreamChunk` (transformer.service.ts:416-545)
as a pure function: emitted chunk (or `none`) and the updated accumulator. -/
def transformStreamChunk (chunk : UChunk) (isFirst : Bool) (acc : StreamAccumulator) :
    Option OChunk × StreamAccumulator :=
  match chunk.candidate with
  | none =>
    if chunkHasUsage chunk then
      let acc := { acc with isComplete := true }
      (some ⟨{}, some (determineFinalFinishReason acc), chunk.usageMetadata⟩, acc)
    else (none, acc)
  | some cand =>
    let ex := extractStreamContent cand.parts
    let acc := applyChunkFinishReason cand.finishReason (accumulateChunk ex acc)
    let delta := buildDelta isFirst ex acc
    if chunkHasUsage chunk then
      let acc := { acc with isComplete := true }
      (some ⟨delta, some (determineFinalFinishReason acc), chunk.usageMetadata⟩, acc)
    else
      (some ⟨delta, none, none⟩, acc)

/-- `TransformerService.createFinalChunk` (transformer.service.ts:547-570). -/
def createFinalChunk (acc : StreamAccumulator) : OChunk × StreamAccumulator :=
  let acc := { acc with isComplete := true }
  (⟨{}, some (determineFinalFinishReason acc), none⟩, acc)

/-- The per-chunk loop of `AntigravityService.chatCompletionStream`
(antigravity.service.ts:206-270): feed each parsed chunk through the
transformer, clearing `isFirst` after the first emission; at upstream end,
append `createFinalChunk` when no usage-bearing chunk completed the stream. -/
def runOpenAIStreamGo : List UChunk → Bool → StreamAccumulator → List OChunk
  | [], _, acc => if acc.isComplete then [] else [(createFinalChunk acc).1]
  | c :: rest, isFirst, acc =>
    match transformStreamChunk c isFirst acc with
    | (some o, acc') => o :: runOpenAIStreamGo rest false acc'
    | (none, acc') => runOpenAIStreamGo rest isFirst acc'

def runOpenAIStream (chunks : List UChunk) : List OChunk :=
  runOpenAIStreamGo chunks true createStreamAccumulator

/-- The accumulator state after the whole stream (same traversal as
`runOpenAIStreamGo`, final-chunk completion included). -/
def runOpenAIStreamAcc : List UChunk → Bool → StreamAccumulator → StreamAccumulator
  | [], _, acc => if acc.isComplete then acc else (createFinalChunk acc).2
  | c :: rest, isFirst, acc =>
    match transformStreamChunk c isFirst acc with
    | (some _, acc') => runOpenAIStreamAcc rest false acc'
    | (none, acc') => runOpenAIStreamAcc rest isFirst acc'

/-- The upstream parts a chunk contributes (`candidate.content?.parts || []`,
nothing when `candidates[0]` is absent). -/
def chunkParts (c : UChunk) : List RPart :=
  match c.candidate with
  | some cand => cand.parts
  | none => []

/-- All parts of a chunk sequence in order: the unary response "holding the
same parts in the same order". -/
def streamParts : List UChunk → List RPart
  | [] => []
  | c :: rest => chunkParts c ++ streamParts rest

/-- Reference form of the non-thought text concatenation. -/
def partsContent : List RPart → String
  | [] => ""
  | p :: rest => (if p.thought = false then p.text else "") ++ partsContent rest

/-- Reference form of the thought text concatenation. -/
def partsReasoning : List RPart → String
  | [] => ""
  | p :: rest => (if p.thought = true then p.text else "") ++ partsReasoning rest

/-- Reference form of the produced tool-call list: one per `functionCall`
part, in order. -/
def partsToolCalls : List RPart → List ToolCallResponse
  | [] => []
  | p :: rest =>
    match p.functionCall with
    | some fc => mkToolCall fc :: partsToolCalls rest
    | none => partsToolCalls rest

def concatContents : List OChunk → String
  | [] => ""
  | o :: rest => (o.delta.content.getD "") ++ concatContents rest

def concatReasonings : List OChunk → String
  | [] => ""
  | o :: rest => (o.delta.reasoningContent.getD "") ++ concatReasonings rest

def toolDeltasOf : List OChunk → List ToolCallDelta
  | [] => []
  | o :: rest => o.delta.toolCalls ++ toolDeltasOf rest

/-- Indexed pairs `(n, tc), (n+1, tc'), …` — the shape the accumulator map
takes when every insertion happens at a fresh key. -/
def enumPairs (n : Nat) : List ToolCallResponse → List (Nat × ToolCallResponse)
  | [] => []
  | tc :: rest => (n, tc) :: enumPairs (n + 1) rest

/-- C7 counterexample fixtures: one logical tool call (same upstream id)
split across two stream chunks, each carrying half of the arguments. -/
def c7Chunk1 : UChunk :=
  { candidate := some { parts := [{ functionCall := some ⟨"f", "argA", some "call_1"⟩ }] } }

def c7Chunk2 : UChunk :=
  { candidate := some { parts := [{ functionCall := some ⟨"f", "argB", some "call_1"⟩ }] } }

/-! ## Anthropic transformer — anthropic-transformer.service.ts
(`AnthropicTransformerService`), streaming path

Content blocks mirror `AnthropicResponseContent`; a `toolUse` id of `none`
stands for the generated `toolu_<24 hex>` fallback.  Event payloads that are
per-request constants (`message_start`'s empty message envelope) are dropped.
The accumulator's `messageId`/`model` (constants) and `currentToolInputJson`
(written at creation, never read) are omitted. -/

inductive ABlock where
  | thinking (content : String)
  | text (content : String)
  | toolUse (id : Option String) (name : String) (argsJson : String)
deriving DecidableEq, Repr

def ABlock.isToolUse : ABlock → Bool
  | .toolUse _ _ _ => true
  | _ => false

/-- `b.type === blockType` for `blockType = part.thought ? 'thinking' : 'text'`. -/
def blockTypeMatches (thought : Bool) : ABlock → Bool
  | .thinking _ => thought
  | .text _ => !thought
  | .toolUse _ _ _ => false

inductive ADelta where
  | textDelta (text : String)
  | thinkingDelta (thinking : String)
  | inputJsonDelta (partialJson : String)
deriving DecidableEq, Repr

inductive AEvent where
  | messageStart
  | contentBlockStart (index : Int) (block : ABlock)
  | contentBlockDelta (index : Int) (delta : ADelta)
  | contentBlockStop (index : Int)
  | messageDelta (stopReason : String) (outputTokens : Nat)
  | messageStop
deriving DecidableEq, Repr

structure AAcc where
  inputTokens : Nat
  outputTokens : Nat
  contentBlocks : List ABlock
  /-- starts at −1; always `contentBlocks.length − 1`. -/
  currentBlockIndex : Int
  stopReason : Option String
  isComplete : Bool
deriving DecidableEq, Repr

def createAnthropicAccumulator : AAcc := ⟨0, 0, [], -1, none, false⟩

/-- `AnthropicTransformerService.mapStopReason`. -/
def mapStopReason (reason : Option String) (hasToolUse : Bool) : String :=
  if hasToolUse then "tool_use"
  else
    match reason with
    | some "STOP" => "end_turn"
    | some "MAX_TOKENS" => "max_tokens"
    | some "SAFETY" => "end_turn"
    | some "RECITATION" => "end_turn"
    | _ => "end_turn"

/-- `AnthropicTransformerService.determineFinalStopReason`. -/
def determineFinalStopReason (acc : AAcc) : String :=
  if acc.contentBlocks.any ABlock.isToolUse then "tool_use"
  else acc.stopReason.getD "end_turn"

/-- `block.thinking += part.text` / `block.text += part.text` at `blockIndex`
(the type re-check of the source folded in; a non-matching or missing block is
left unchanged — unreachable under the accumulator invariant). -/
def appendTextAt (blocks : List ABlock) (i : Nat) (txt : String) (thought : Bool) :
    List ABlock :=
  match blocks.get? i with
  | some (.thinking s) => if thought then blocks.set i (.thinking (s ++ txt)) else blocks
  | some (.text s) => if thought then blocks else blocks.set i (.text (s ++ txt))
  | _ => blocks

/-- The body of `for (const part of parts)` in
`AnthropicTransformerService.transformStreamChunk` (part_006:437-530),
threading the accumulator and the events emitted so far. -/
def anthropicPartStep (st : AAcc × List AEvent) (p : RPart) : AAcc × List AEvent :=
  let (acc, events) := st
  let (acc, events) :=
    if p.text ≠ "" then
      match acc.contentBlocks.findIdx? (blockTypeMatches p.thought) with
      | some i =>
        ({ acc with contentBlocks := appendTextAt acc.contentBlocks i p.text p.thought },
         events ++ [AEvent.contentBlockDelta (i : Int)
           (if p.thought then .thinkingDelta p.text else .textDelta p.text)])
      | none =>
        let newIndex := acc.currentBlockIndex + 1
        let newBlock : ABlock := if p.thought then .thinking "" else .text ""
        let acc := { acc with
          currentBlockIndex := newIndex
          contentBlocks := acc.contentBlocks ++ [newBlock] }
        ({ acc with contentBlocks :=
            appendTextAt acc.contentBlocks (acc.contentBlocks.length - 1) p.text p.thought },
         events ++
           [AEvent.contentBlockStart newIndex newBlock,
            AEvent.contentBlockDelta newIndex
              (if p.thought then .thinkingDelta p.text else .textDelta p.text)])
    else (acc, events)
  match p.functionCall with
  | some fc =>
    let newIndex := acc.currentBlockIndex + 1
    let acc := { acc with
      currentBlockIndex := newIndex
      contentBlocks := acc.contentBlocks ++ [.toolUse fc.id fc.name fc.argsJson] }
    (acc, events ++
      [AEvent.contentBlockStart newIndex (.toolUse fc.id fc.name ""),
       AEvent.contentBlockDelta newIndex (.inputJsonDelta fc.argsJson),
       AEvent.contentBlockStop newIndex])
  | none => (acc, events)

/-- The `for (let i = 0; i <= currentBlockIndex; i++)` stop loop of the
usage-bearing path (part_006:542-547): stop each block whose type is not
`tool_use`.  (A missing block — impossible under the invariant — yields no
event.) -/
def nonToolStops (acc : AAcc) : List AEvent :=
  (List.range (acc.currentBlockIndex + 1).toNat).filterMap fun i =>
    match acc.contentBlocks.get? i with
    | some b => if b.isToolUse then none else some (AEvent.contentBlockStop (i : Int))
    | none => none

/-- The unconditional stop loop of `createFinalEvents` (part_006:581-583). -/
def allStops (acc : AAcc) : List AEvent :=
  (List.range (acc.currentBlockIndex + 1).toNat).map fun i => AEvent.contentBlockStop (i : Int)

/-- Records the chunk's (mapped) finish reason into the accumulator
(part_006:532-537). -/
def applyAnthropicFinishReason (fr : Option String) (acc : AAcc) : AAcc :=
  match fr with
  | some r =>
    let sr := mapStopReason (some r) (acc.contentBlocks.any ABlock.isToolUse)
    { acc with stopReason := some sr }
  | none => acc

/-- `AnthropicTransformerService.transformStreamChunk` (part_006:384-561). -/
def anthropicTransformStreamChunk (chunk : UChunk) (acc : AAcc) (isFirst : Bool) :
    List AEvent × AAcc :=
  let events : List AEvent := if isFirst then [.messageStart] else []
  let hu := chunkHasUsage chunk
  let acc :=
    if hu then
      { acc with
        inputTokens := (chunk.usageMetadata.map (fun u => u.promptTokenCount)).getD 0
        outputTokens := (chunk.usageMetadata.map (fun u => u.candidatesTokenCount)).getD 0 }
    else acc
  match chunk.candidate with
  | none =>
    if hu then
      let acc := { acc with isComplete := true }
      (events ++ [.messageDelta (determineFinalStopReason acc) acc.outputTokens, .messageStop],
       acc)
    else (events, acc)
  | some cand =>
    let st := cand.parts.foldl anthropicPartStep (acc, events)
    let acc := applyAnthropicFinishReason cand.finishReason st.1
    if hu then
      let acc := { acc with isComplete := true }
      (st.2 ++ nonToolStops acc ++
        [.messageDelta (determineFinalStopReason acc) acc.outputTokens, .messageStop],
       acc)
    else (st.2, acc)

/-- `AnthropicTransformerService.createFinalEvents` (part_006:572-596). -/
def createFinalEvents (acc : AAcc) : List AEvent :=
  if acc.isComplete then []
  else
    allStops acc ++ [.messageDelta (determineFinalStopReason acc) acc.outputTokens, .messageStop]

/-- The per-chunk loop of `AntigravityService.anthropicMessagesStream`
(antigravity.service.ts:470-541): emit each chunk's events, clearing `isFirst`
after the first non-empty batch; at stream end append `createFinalEvents`. -/
def runAnthropicStreamGo : List UChunk → Bool → AAcc → List AEvent
  | [], _, acc => createFinalEvents acc
  | c :: rest, isFirst, acc =>
    let r := anthropicTransformStreamChunk c acc isFirst
    r.1 ++ runAnthropicStreamGo rest (if r.1.isEmpty then isFirst else false) r.2

def runAnthropicStream (chunks : List UChunk) : List AEvent :=
  runAnthropicStreamGo chunks true createAnthropicAccumulator

/-- C8 counterexample fixture: a single chunk carrying one `functionCall` part
and no usage metadata; the upstream then ends. -/
def c8Chunk : UChunk :=
  { candidate := some { parts := [{ functionCall := some ⟨"f", "argT", some "t1"⟩ }] } }

/-! ## Theorems -/

theorem markCooldownSeq_nil (base : Int) (s : AccountState) :
    markCooldownSeq base s [] = s := rfl

theorem markCooldownSeq_cons (base t : Int) (ts : List Int) (s : AccountState) :
    markCooldownSeq base s (t :: ts) = markCooldownSeq base (markCooldown base t s) ts := rfl

theorem markCooldown_consecutiveErrors (base now : Int) (s : AccountState) :
    (markCooldown base now s).consecutiveErrors = s.consecutiveErrors + 1 := rfl

theorem markCooldownSeq_counters (base : Int) (ts : List Int) (s : AccountState) :
    (markCooldownSeq base s ts).consecutiveErrors = s.consecutiveErrors + ts.length ∧
    (markCooldownSeq base s ts).errorCount = s.errorCount + ts.length := by
  induction ts generalizing s with
  | nil => simp [markCooldownSeq_nil]
  | cons t ts ih =>
    rw [markCooldownSeq_cons]
    obtain ⟨h1, h2⟩ := ih (markCooldown base t s)
    refine ⟨?_, ?_⟩
    · rw [h1]; simp [markCooldown]; omega
    · rw [h2]; simp [markCooldown]; omega

theorem markCooldownSeq_last (base : Int) (ts : List Int) (hne : ts ≠ [])
    (s : AccountState) :
    (markCooldownSeq base s ts).status = .cooldown ∧
    (markCooldownSeq base s ts).cooldownUntil =
      some (ts.getLast hne +
        base * 2 ^ (min (s.consecutiveErrors + ts.length - 1) 6)) := by
  induction ts generalizing s with
  | nil => exact absurd rfl hne
  | cons t ts ih =>
    rw [markCooldownSeq_cons]
    cases ts with
    | nil =>
      simp [markCooldownSeq_nil, markCooldown, List.getLast]
    | cons t' ts' =>
      have hne' : t' :: ts' ≠ [] := by simp
      obtain ⟨h1, h2⟩ := ih hne' (markCooldown base t s)
      refine ⟨h1, ?_⟩
      rw [h2]
      have harg : (markCooldown base t s).consecutiveErrors + (t' :: ts').length - 1 =
          s.consecutiveErrors + (t :: t' :: ts').length - 1 := by
        simp [markCooldown]
        omega
      rw [harg]
      rfl

/-- C1: after k ≥ 1 consecutive `markCooldown` calls on an account with no
intervening `markSuccess` (so its consecutive-error counter starts at 0, since
only `markCooldown` increments it and `markSuccess` resets it), the account is
in `cooldown`, its consecutive-error and error counters have each increased by
k, and its cooldown deadline is the time of the k-th call plus
`base * 2 ^ min (k-1) 6` — the backoff multiplier saturates at 64×. -/
theorem claim_C1 (base : Int) (s : AccountState) (ts : List Int)
    (hk : ts ≠ []) (h0 : s.consecutiveErrors = 0) :
    (markCooldownSeq base s ts).status = .cooldown ∧
    (markCooldownSeq base s ts).consecutiveErrors = s.consecutiveErrors + ts.length ∧
    (markCooldownSeq base s ts).errorCount = s.errorCount + ts.length ∧
    (markCooldownSeq base s ts).cooldownUntil =
      some (ts.getLast hk + base * 2 ^ (min (ts.length - 1) 6)) := by
  obtain ⟨hc, he⟩ := markCooldownSeq_counters base ts s
  obtain ⟨hs, hu⟩ := markCooldownSeq_last base ts hk s
  refine ⟨hs, hc, he, ?_⟩
  rw [hu, h0]
  simp

/-- Witness for C1: three cooldowns at times 100, 200, 300 with base 60000 put
the account in cooldown with counters 3 and deadline 300 + 60000·2² = 240300. -/
theorem claim_C1_witness :
    (markCooldownSeq 60000 (freshAccount "account-1" "a@x.com") [100, 200, 300]).status
        = .cooldown ∧
    (markCooldownSeq 60000 (freshAccount "account-1" "a@x.com") [100, 200, 300]).consecutiveErrors
        = 3 ∧
    (markCooldownSeq 60000 (freshAccount "account-1" "a@x.com") [100, 200, 300]).errorCount
        = 3 ∧
    (markCooldownSeq 60000 (freshAccount "account-1" "a@x.com") [100, 200, 300]).cooldownUntil
        = some 240300 := by
  obtain ⟨h1, h2, h3, h4⟩ :=
    claim_C1 60000 (freshAccount "account-1" "a@x.com") [100, 200, 300] (by decide) rfl
  refine ⟨h1, ?_, ?_, ?_⟩
  · simpa using h2
  · simpa using h3
  · rw [h4]; norm_num

theorem selectBest_eq_none_iff (f : AccountState → ℚ) (l : List AccountState) :
    selectBest f l = none ↔ l = [] := by
  cases l with
  | nil => simp [selectBest]
  | cons a rest =>
    simp only [selectBest]
    cases h : selectBest f rest with
    | none => simp
    | some b => by_cases hb : f b > f a <;> simp [hb]

theorem selectBest_split (f : AccountState → ℚ) :
    ∀ (l : List AccountState) (r : AccountState), selectBest f l = some r →
      ∃ pre post, l = pre ++ r :: post ∧
        (∀ x ∈ pre, f x < f r) ∧ (∀ x ∈ post, f x ≤ f r) := by
  intro l
  induction l with
  | nil => intro r h; simp [selectBest] at h
  | cons a rest ih =>
    intro r h
    simp only [selectBest] at h
    cases hrest : selectBest f rest with
    | none =>
      rw [hrest] at h
      have hnil : rest = [] := (selectBest_eq_none_iff f rest).mp hrest
      subst hnil
      injection h with h
      subst h
      exact ⟨[], [], rfl, by simp, by simp⟩
    | some b =>
      rw [hrest] at h
      dsimp only at h
      obtain ⟨pre, post, heq, hpre, hpost⟩ := ih b hrest
      by_cases hb : f b > f a
      · rw [if_pos hb] at h
        injection h with h
        subst h
        refine ⟨a :: pre, post, by rw [heq]; rfl, ?_, hpost⟩
        intro x hx
        rcases List.mem_cons.mp hx with hxa | hxp
        · subst hxa; exact hb
        · exact hpre x hxp
      · rw [if_neg hb] at h
        injection h with h
        subst h
        refine ⟨[], rest, rfl, by simp, ?_⟩
        intro x hx
        have hxb : f x ≤ f b := by
          rw [heq] at hx
          rcases List.mem_append.mp hx with h1 | h2
          · exact le_of_lt (hpre x h1)
          · rcases List.mem_cons.mp h2 with hxb | hxp
            · subst hxb; exact le_refl _
            · exact hpost x hxp
        exact hxb.trans (not_lt.mp hb)

/-- C3: `getNextAccount` returns `none` exactly when no account is ready, and
otherwise returns the ready account with the maximal score (quota·1000 with the
−5000 exhausted penalty when a model and a cached entry exist, −0.1·requestCount,
plus the recency bonus), ties broken by insertion order: every earlier ready
account scores strictly lower, every later one scores no higher. -/
theorem claim_C3 (env : SelectorEnv) (pool : List AccountState) (modelName : Option String) :
    (getNextAccount env pool modelName = none ↔ getReadyAccounts env.now pool = []) ∧
    (∀ r, getNextAccount env pool modelName = some r →
      ∃ pre post, getReadyAccounts env.now pool = pre ++ r :: post ∧
        (∀ x ∈ pre, score env modelName x < score env modelName r) ∧
        (∀ x ∈ post, score env modelName x ≤ score env modelName r)) := by
  constructor
  · exact selectBest_eq_none_iff _ _
  · intro r h
    exact selectBest_split _ _ r h

/-- Witness for C3: in a two-account pool where `account-2` has more remaining
quota for model `m`, `getNextAccount` picks `account-2`, splitting the ready
list with the lower-scoring `account-1` strictly before it. -/
theorem claim_C3_witness :
    ∃ pre post,
      getReadyAccounts (1000 : Int)
          [freshAccount "account-1" "a1@x.com", freshAccount "account-2" "a2@x.com"] =
        pre ++ freshAccount "account-2" "a2@x.com" :: post ∧
      (∀ x ∈ pre,
        score ⟨[("account-1", [("m", ⟨0⟩)]), ("account-2", [("m", ⟨1⟩)])], 1/100, 1000⟩
            (some "m") x <
          score ⟨[("account-1", [("m", ⟨0⟩)]), ("account-2", [("m", ⟨1⟩)])], 1/100, 1000⟩
            (some "m") (freshAccount "account-2" "a2@x.com")) ∧
      (∀ x ∈ post,
        score ⟨[("account-1", [("m", ⟨0⟩)]), ("account-2", [("m", ⟨1⟩)])], 1/100, 1000⟩
            (some "m") x ≤
          score ⟨[("account-1", [("m", ⟨0⟩)]), ("account-2", [("m", ⟨1⟩)])], 1/100, 1000⟩
            (some "m") (freshAccount "account-2" "a2@x.com")) :=
  (claim_C3 ⟨[("account-1", [("m", ⟨0⟩)]), ("account-2", [("m", ⟨1⟩)])], 1/100, 1000⟩
      [freshAccount "account-1" "a1@x.com", freshAccount "account-2" "a2@x.com"]
      (some "m")).2
    (freshAccount "account-2" "a2@x.com") (by
      norm_num [getNextAccount, getReadyAccounts, lazyExpire, selectBest, score,
        quotaComponent, recencyComponent, getQuotaStatusModels, quotaStatusOf,
        freshAccount, List.lookup, List.find?]
      intro h
      rw [if_neg (by decide)] at h
      norm_num at h)

theorem selectBest_congr (f g : AccountState → ℚ) (h : ∀ x, f x = g x) :
    ∀ l, selectBest f l = selectBest g l := by
  intro l
  induction l with
  | nil => rfl
  | cons a rest ih =>
    simp only [selectBest, ih]
    cases selectBest g rest with
    | none => rfl
    | some b => simp only [h]

theorem getNextAccount_no_model_quota_irrelevant (q1 q2 : QuotaCache) (th1 th2 : ℚ)
    (now : Int) (pool : List AccountState) :
    getNextAccount ⟨q1, th1, now⟩ pool none = getNextAccount ⟨q2, th2, now⟩ pool none :=
  selectBest_congr _ _ (fun _ => rfl) _

theorem dispatchGo_quota_irrelevant (base : Int) (q1 q2 : QuotaCache) (th1 th2 : ℚ)
    (now : Int) (upstream : String → UpstreamOutcome) :
    ∀ (fuel : Nat) (pool : List AccountState) (tried : List String),
      dispatchGo base ⟨q1, th1, now⟩ upstream fuel pool tried =
        dispatchGo base ⟨q2, th2, now⟩ upstream fuel pool tried := by
  intro fuel
  induction fuel with
  | zero => intro pool tried; rfl
  | succ n ih =>
    intro pool tried
    simp only [dispatchGo,
      getNextAccount_no_model_quota_irrelevant q1 q2 th1 th2 now pool]
    cases hg : getNextAccount ⟨q2, th2, now⟩ pool none with
    | none => rfl
    | some a =>
      dsimp only
      cases hu : upstream a.id with
      | ok => rfl
      | rateLimited => simp only [hu]; exact ih _ _
      | failed => rfl

/-- C2 counterexample: the dispatcher's retry loop calls `getNextAccount()`
with no model argument (antigravity.service.ts:60), so for a request naming
model `m` it tries `account-1` — while the Selector invoked with `m`, whose
quota component sees account-1 exhausted and account-2 full, would pick
`account-2`.  The Dispatcher therefore does not obtain the account by
invoking the Selector with the request's model. -/
theorem claim_C2_counterexample :
    (chatCompletionDispatch 60000 3 c2Env c2Pool (fun _ => .ok)).tried = ["account-1"] ∧
    getNextAccount c2Env c2Pool (some "m") = some (freshAccount "account-2" "a2@x.com") ∧
    (freshAccount "account-2" "a2@x.com").id ≠ "account-1" := by
  refine ⟨?_, ?_, by decide⟩
  · norm_num [chatCompletionDispatch, dispatchGo, c2Env, c2Pool, c2Quota,
      getNextAccount, getReadyAccounts, lazyExpire, selectBest, score,
      quotaComponent, recencyComponent, getQuotaStatusModels, quotaStatusOf,
      freshAccount, poolMap, markSuccess, List.lookup, List.find?,
      retryAfterSeconds, getEarliestCooldownEnd]
  · norm_num [c2Env, c2Pool, c2Quota, getNextAccount, getReadyAccounts,
      lazyExpire, selectBest, score, quotaComponent, recencyComponent,
      getQuotaStatusModels, quotaStatusOf, freshAccount, List.lookup, List.find?]
    intro h
    rw [if_neg (by decide)] at h
    norm_num at h

/-- C2 amended: every dispatch attempt obtains its account by invoking the
Selector with NO model, so the quota component — applied only when a model is
given — never participates in dispatch-time account choice: the accounts
tried, the outcome and the resulting pool are invariant under arbitrary
changes of the quota cache and threshold. -/
theorem claim_C2_amended (base : Int) (maxRetryAccounts : Nat) (q1 q2 : QuotaCache)
    (th1 th2 : ℚ) (now : Int) (pool : List AccountState)
    (upstream : String → UpstreamOutcome) :
    chatCompletionDispatch base maxRetryAccounts ⟨q1, th1, now⟩ pool upstream =
      chatCompletionDispatch base maxRetryAccounts ⟨q2, th2, now⟩ pool upstream :=
  dispatchGo_quota_irrelevant base q1 q2 th1 th2 now upstream _ pool []

/-- C4 counterexample: adding a credential whose email matches an account with
`consecutiveErrors = 2` updates it in place (`isNew = false`) but leaves
`consecutiveErrors` at 2 — the source resets only `errorCount`, so "resets a's
error counts to 0" fails for the consecutive-error counter. -/
theorem claim_C4_counterexample :
    (addAccount c4Pool c4Cred).pool.map AccountState.consecutiveErrors = [2] ∧
    (addAccount c4Pool c4Cred).isNew = false ∧
    (2 : Nat) ≠ 0 := by decide

/-- C4 amended: for a credential whose email matches existing account `a`,
`addAccount` returns `a`'s id with `isNew = false`, keeps the pool's ids (and
size and order) unchanged, and rewrites exactly the accounts with `a`'s id:
access token, refresh token and expiry are replaced, status reset to `ready`
and `errorCount` to 0, while `consecutiveErrors` (and all other fields) are
left as they were; all other accounts are untouched. -/
theorem claim_C4_amended (pool : List AccountState) (c : AccountCredential)
    (a : AccountState)
    (hfind : pool.find? (fun s => s.credential.email == c.email) = some a) :
    (addAccount pool c).id = a.id ∧
    (addAccount pool c).isNew = false ∧
    (addAccount pool c).pool.map AccountState.id = pool.map AccountState.id ∧
    List.Forall₂ (fun old new =>
        (old.id = a.id → new = refreshCredential c old) ∧
        (old.id ≠ a.id → new = old))
      pool (addAccount pool c).pool := by
  simp only [addAccount, hfind]
  refine ⟨trivial, trivial, ?_, ?_⟩
  · rw [List.map_map]
    apply List.map_congr_left
    intro s _
    by_cases h : s.id = a.id <;> simp [h, refreshCredential]
  · rw [List.forall₂_map_right_iff, List.forall₂_same]
    intro s _
    constructor
    · intro h; simp [h]
    · intro h; simp [h]

/-- Witness for the amended C4 at the concrete fixture pool. -/
theorem claim_C4_amended_witness :
    (addAccount c4Pool c4Cred).id = c4Acct.id ∧
    (addAccount c4Pool c4Cred).isNew = false ∧
    (addAccount c4Pool c4Cred).pool.map AccountState.id = c4Pool.map AccountState.id ∧
    List.Forall₂ (fun old new =>
        (old.id = c4Acct.id → new = refreshCredential c4Cred old) ∧
        (old.id ≠ c4Acct.id → new = old))
      c4Pool (addAccount c4Pool c4Cred).pool :=
  claim_C4_amended c4Pool c4Cred c4Acct (by decide)

theorem mapSet_lookup_self {β : Type} (k : String) (v : β) (l : List (String × β)) :
    (mapSet k v l).lookup k = some v := by
  induction l with
  | nil => simp [mapSet, List.lookup]
  | cons p rest ih =>
    obtain ⟨k', v'⟩ := p
    by_cases h : k' = k
    · subst h; simp [mapSet, List.lookup]
    · have hb : (k == k') = false := beq_eq_false_iff_ne.mpr (Ne.symm h)
      simp [mapSet, h, List.lookup, hb, ih]

theorem mapSet_lookup_ne {β : Type} (k k' : String) (v : β) (l : List (String × β))
    (h : k' ≠ k) : (mapSet k v l).lookup k' = l.lookup k' := by
  have hb : (k' == k) = false := beq_eq_false_iff_ne.mpr h
  induction l with
  | nil => simp [mapSet, List.lookup, hb]
  | cons p rest ih =>
    obtain ⟨k'', v''⟩ := p
    by_cases h2 : k'' = k
    · subst h2; simp [mapSet, List.lookup, hb]
    · by_cases h3 : k' = k''
      · subst h3; simp [mapSet, h2, List.lookup]
      · have hb3 : (k' == k'') = false := beq_eq_false_iff_ne.mpr h3
        simp [mapSet, h2, List.lookup, hb3, ih]

theorem upsertFold_lookup_of_not_mem (m : String) :
    ∀ (models : List (String × UModelInfo)), m ∉ models.map Prod.fst →
      ∀ mc, (models.foldl upsertModelQuota mc).lookup m = mc.lookup m := by
  intro models
  induction models with
  | nil => intro _ mc; rfl
  | cons p rest ih =>
    intro hmem mc
    simp only [List.map_cons, List.mem_cons, not_or] at hmem
    obtain ⟨hne, hrest⟩ := hmem
    rw [List.foldl_cons, ih hrest]
    cases hq : p.2.quotaInfo with
    | none => simp [upsertModelQuota, hq]
    | some qi => simp [upsertModelQuota, hq, mapSet_lookup_ne _ _ _ _ hne]

theorem upsertFold_lookup (m : String) (qi : UQuotaInfo) :
    ∀ (models : List (String × UModelInfo)),
      (models.map Prod.fst).Nodup →
      models.lookup m = some ⟨some qi⟩ →
      ∀ mc, (models.foldl upsertModelQuota mc).lookup m =
        some ⟨qi.remainingFraction.getD 1⟩ := by
  intro models
  induction models with
  | nil => intro _ hm; simp [List.lookup] at hm
  | cons p rest ih =>
    intro hnodup hm mc
    obtain ⟨k, info⟩ := p
    simp only [List.map_cons, List.nodup_cons] at hnodup
    obtain ⟨hknotin, hrestnodup⟩ := hnodup
    by_cases hk : m = k
    · subst hk
      simp only [List.lookup, beq_self_eq_true] at hm
      injection hm with hm
      subst hm
      rw [List.foldl_cons]
      rw [upsertFold_lookup_of_not_mem m rest hknotin]
      simp [upsertModelQuota, mapSet_lookup_self]
    · have : (m == k) = false := beq_eq_false_iff_ne.mpr hk
      simp only [List.lookup, this] at hm
      rw [List.foldl_cons]
      exact ih hrestnodup hm _

theorem find?_quotaStatus (mc : List (String × QuotaCacheEntry)) (th : ℚ) (m : String) :
    ((mc.map fun p => (⟨p.1, p.2.quota, quotaStatusOf th p.2⟩ : ModelQuotaStatus)).find?
        (fun q => q.modelName == m)) =
      (mc.lookup m).map fun e => ⟨m, e.quota, quotaStatusOf th e⟩ := by
  induction mc with
  | nil => simp [List.lookup]
  | cons p rest ih =>
    by_cases h : p.1 = m
    · simp [List.find?, List.lookup, h]
    · have h1 : (p.1 == m) = false := beq_eq_false_iff_ne.mpr h
      have h2 : (m == p.1) = false := beq_eq_false_iff_ne.mpr (Ne.symm h)
      simp [List.find?, List.lookup, h1, h2, ih]

/-- C10: when the upstream quota fetch returns model `m` whose `quotaInfo`
omits `remainingFraction`, the tracker caches `quota = 1.0` for that
(account, model) pair; `getQuotaStatus` then reports the entry `available`
(1.0 exceeds any threshold below 1, such as the 0.01 default), and the
selector's quota component for that account and model is the full
`1.0 · 1000 = 1000`. -/
theorem claim_C10 (cache : QuotaCache) (accountId m : String)
    (models : List (String × UModelInfo)) (th : ℚ) (now : Int)
    (hnodup : (models.map Prod.fst).Nodup)
    (hm : models.lookup m = some ⟨some ⟨none⟩⟩)
    (hth : th < 1) :
    (((updateQuotasFromModels cache accountId models).lookup accountId).getD []).lookup m
        = some ⟨1⟩ ∧
    (getQuotaStatusModels th (updateQuotasFromModels cache accountId models)
        accountId).find? (fun q => q.modelName == m) = some ⟨m, 1, .available⟩ ∧
    quotaComponent ⟨updateQuotasFromModels cache accountId models, th, now⟩
        accountId (some m) = 1000 := by
  have hlook : (updateQuotasFromModels cache accountId models).lookup accountId =
      some (models.foldl upsertModelQuota ((cache.lookup accountId).getD [])) := by
    simp [updateQuotasFromModels, mapSet_lookup_self]
  have hentry : (models.foldl upsertModelQuota ((cache.lookup accountId).getD [])).lookup m
      = some ⟨1⟩ := by
    have := upsertFold_lookup m ⟨none⟩ models hnodup hm ((cache.lookup accountId).getD [])
    simpa using this
  refine ⟨?_, ?_, ?_⟩
  · rw [hlook]
    simpa using hentry
  · rw [getQuotaStatusModels, hlook]
    rw [find?_quotaStatus, hentry]
    simp [quotaStatusOf, hth]
  · rw [quotaComponent]
    rw [getQuotaStatusModels, hlook, find?_quotaStatus, hentry]
    simp only [Option.map_some', gt_iff_lt]
    dsimp only
    have hst : quotaStatusOf th ⟨1⟩ = QuotaEntryStatus.available := by
      simp [quotaStatusOf, hth]
    rw [hst]
    norm_num
    decide

/-- Witness for C10: empty prior cache, one fetched model `m` with a
`quotaInfo` but no `remainingFraction`, default threshold 0.01. -/
theorem claim_C10_witness :
    ((((updateQuotasFromModels [] "account-1" [("m", ⟨some ⟨none⟩⟩)]).lookup
        "account-1").getD []).lookup "m" = some ⟨1⟩) ∧
    ((getQuotaStatusModels (1/100) (updateQuotasFromModels [] "account-1"
        [("m", ⟨some ⟨none⟩⟩)]) "account-1").find? (fun q => q.modelName == "m")
      = some ⟨"m", 1, .available⟩) ∧
    (quotaComponent ⟨updateQuotasFromModels [] "account-1" [("m", ⟨some ⟨none⟩⟩)],
        1/100, 0⟩ "account-1" (some "m") = 1000) :=
  claim_C10 [] "account-1" "m" [("m", ⟨some ⟨none⟩⟩)] (1/100) 0
    (by decide) (by decide) (by norm_num)

theorem makeRequestGo_spec (n : Nat) (first retry : Nat → ReqOutcome) :
    ∀ (fuel i cursor : Nat), fuel + i = n → 0 < fuel →
      (makeRequestGo n first retry fuel i cursor).trace ≠ [] ∧
      (∀ j, j < (makeRequestGo n first retry fuel i cursor).trace.length →
        (makeRequestGo n first retry fuel i cursor).trace.get? j
          = some ((cursor + i + 2 * j) % n)) ∧
      (∀ j u, (makeRequestGo n first retry fuel i cursor).trace.get? j = some u →
        j + 1 < (makeRequestGo n first retry fuel i cursor).trace.length →
        first u ≠ .ok ∧ first u ≠ .http 429 ∧ first u ≠ .http 401) ∧
      (makeRequestGo n first retry fuel i cursor).outcome ≠ .allFailed502 := by
  intro fuel
  induction fuel with
  | zero => intro i cursor hfi hf; exact absurd hf (lt_irrefl 0)
  | succ f ih =>
    intro i cursor hfi hf
    simp only [makeRequestGo]
    cases hfu : first ((cursor + i) % n) with
    | ok =>
      dsimp only
      refine ⟨by simp, ?_, ?_, by simp⟩
      · intro j hj
        simp only [List.length_singleton] at hj
        have hj0 : j = 0 := by omega
        subst hj0
        simp
      · intro j u' hget hlen
        simp only [List.length_singleton] at hlen
        omega
    | netErr =>
      dsimp only
      by_cases hlast : i = n - 1
      · rw [if_pos hlast]
        refine ⟨by simp, ?_, ?_, by simp⟩
        · intro j hj
          simp only [List.length_singleton] at hj
          have hj0 : j = 0 := by omega
          subst hj0
          simp
        · intro j u' hget hlen
          simp only [List.length_singleton] at hlen
          omega
      · rw [if_neg hlast]
        have hf' : 0 < f := by omega
        obtain ⟨ihne, ihget, ihadv, ihout⟩ := ih (i + 1) ((cursor + 1) % n) (by omega) hf'
        refine ⟨by simp, ?_, ?_, ihout⟩
        · intro j hj
          cases j with
          | zero => simp
          | succ j =>
            simp only [List.length_cons] at hj
            have hj' : j < (makeRequestGo n first retry f (i + 1) ((cursor + 1) % n)).trace.length := by
              omega
            have hg := ihget j hj'
            simp only [List.get?_cons_succ]
            rw [hg]
            congr 1
            conv_lhs => rw [Nat.add_assoc]
            rw [Nat.mod_add_mod, ← Nat.add_assoc]
            congr 1
            ring
        · intro j u' hget hlen
          cases j with
          | zero =>
            simp only [List.get?_cons_zero, Option.some.injEq] at hget
            subst hget
            rw [hfu]
            exact ⟨by simp, by simp, by simp⟩
          | succ j =>
            simp only [List.get?_cons_succ] at hget
            simp only [List.length_cons] at hlen
            exact ihadv j u' hget (by omega)
    | http s =>
      dsimp only
      by_cases h429 : s = 429
      · rw [if_pos h429]
        refine ⟨by simp, ?_, ?_, by simp⟩
        · intro j hj
          simp only [List.length_singleton] at hj
          have hj0 : j = 0 := by omega
          subst hj0
          simp
        · intro j u' hget hlen
          simp only [List.length_singleton] at hlen
          omega
      · rw [if_neg h429]
        by_cases h401 : s = 401
        · rw [if_pos h401]
          cases retry ((cursor + i) % n) with
          | ok =>
            refine ⟨by simp, ?_, ?_, by simp⟩
            · intro j hj
              simp only [List.length_singleton] at hj
              have hj0 : j = 0 := by omega
              subst hj0
              simp
            · intro j u' hget hlen
              simp only [List.length_singleton] at hlen
              omega
          | http s' =>
            refine ⟨by simp, ?_, ?_, by simp⟩
            · intro j hj
              simp only [List.length_singleton] at hj
              have hj0 : j = 0 := by omega
              subst hj0
              simp
            · intro j u' hget hlen
              simp only [List.length_singleton] at hlen
              omega
          | netErr =>
            refine ⟨by simp, ?_, ?_, by simp⟩
            · intro j hj
              simp only [List.length_singleton] at hj
              have hj0 : j = 0 := by omega
              subst hj0
              simp
            · intro j u' hget hlen
              simp only [List.length_singleton] at hlen
              omega
        · rw [if_neg h401]
          by_cases hlast : i = n - 1
          · rw [if_pos hlast]
            refine ⟨by simp, ?_, ?_, by simp⟩
            · intro j hj
              simp only [List.length_singleton] at hj
              have hj0 : j = 0 := by omega
              subst hj0
              simp
            · intro j u' hget hlen
              simp only [List.length_singleton] at hlen
              omega
          · rw [if_neg hlast]
            have hf' : 0 < f := by omega
            obtain ⟨ihne, ihget, ihadv, ihout⟩ :=
              ih (i + 1) ((cursor + 1) % n) (by omega) hf'
            refine ⟨by simp, ?_, ?_, ihout⟩
            · intro j hj
              cases j with
              | zero => simp
              | succ j =>
                simp only [List.length_cons] at hj
                have hj' : j <
                    (makeRequestGo n first retry f (i + 1) ((cursor + 1) % n)).trace.length := by
                  omega
                have hg := ihget j hj'
                simp only [List.get?_cons_succ]
                rw [hg]
                congr 1
                conv_lhs => rw [Nat.add_assoc]
                rw [Nat.mod_add_mod, ← Nat.add_assoc]
                congr 1
                ring
            · intro j u' hget hlen
              cases j with
              | zero =>
                simp only [List.get?_cons_zero, Option.some.injEq] at hget
                subst hget
                rw [hfu]
                refine ⟨by simp, ?_, ?_⟩
                · intro h
                  exact h429 (by injection h)
                · intro h
                  exact h401 (by injection h)
              | succ j =>
                simp only [List.get?_cons_succ] at hget
                simp only [List.length_cons] at hlen
                exact ihadv j u' hget (by omega)

/-- C5 counterexample: with two base URLs, cursor 0 and every attempt failing
with a network error, the loop advances both the cursor and the loop index, so
its second attempt hits base URL 0 again — never URL 1 — and exhaustion
surfaces the mapped last error (500 for a network error), not BadGateway 502;
the 502 branch is unreachable for a non-empty URL list.  This refutes "tries
the next base URL" and "if every base URL has failed it surfaces BadGateway". -/
theorem claim_C5_counterexample :
    (makeRequest 2 0 (fun _ => .netErr) (fun _ => .netErr)).trace = [0, 0] ∧
    (makeRequest 2 0 (fun _ => .netErr) (fun _ => .netErr)).outcome = .lastError 500 ∧
    (MROutcome.lastError 500 ≠ .allFailed502) ∧
    (([0, 0] : List Nat) ≠ [0, 1]) := by decide

/-- C5 amended: the transport starts at the rotating cursor, but on each
cursor-advancing failure the loop index advances too, so attempt j hits base
URL `(cursor + 2·j) mod n` (URLs may repeat and be skipped).  An upstream 429
surfaces the rate-limit error immediately with no further attempts; every
non-final attempt failed with an error other than success, 429 and 401 (any
such error — network, ≥500, or any other 4xx — advances the cursor); and the
call never surfaces BadGateway 502 when at least one base URL exists (the
final failure is surfaced with its own mapped status instead). -/
theorem claim_C5_amended (n cursor : Nat) (first retry : Nat → ReqOutcome)
    (hn : 0 < n) :
    ((makeRequest n cursor first retry).trace ≠ [] ∧
      ∀ j, j < (makeRequest n cursor first retry).trace.length →
        (makeRequest n cursor first retry).trace.get? j
          = some ((cursor + 2 * j) % n)) ∧
    (∀ j u, (makeRequest n cursor first retry).trace.get? j = some u →
      j + 1 < (makeRequest n cursor first retry).trace.length →
      first u ≠ .ok ∧ first u ≠ .http 429 ∧ first u ≠ .http 401) ∧
    (first (cursor % n) = .http 429 →
      (makeRequest n cursor first retry).outcome = .rateLimited ∧
      (makeRequest n cursor first retry).trace = [cursor % n]) ∧
    (makeRequest n cursor first retry).outcome ≠ .allFailed502 := by
  obtain ⟨h1, h2, h3, h4⟩ := makeRequestGo_spec n first retry n 0 cursor (by omega) hn
  refine ⟨⟨h1, ?_⟩, h3, ?_, h4⟩
  · intro j hj
    have := h2 j hj
    simpa using this
  · intro h429
    obtain ⟨m, rfl⟩ : ∃ m, n = m + 1 := ⟨n - 1, by omega⟩
    have h429' : first ((cursor + 0) % (m + 1)) = .http 429 := by
      simpa using h429
    have hgo : makeRequest (m + 1) cursor first retry =
        ⟨.rateLimited, [(cursor + 0) % (m + 1)], cursor⟩ := by
      simp only [makeRequest, makeRequestGo]
      rw [h429']
      rfl
    rw [hgo]
    constructor
    · rfl
    · simp

/-- Witness for the amended C5: two base URLs, the first attempt (URL 0)
returns 429 — the call rate-limits immediately with the singleton trace. -/
theorem claim_C5_amended_witness :
    ((makeRequest 2 0 (fun _ => .http 429) (fun _ => .ok)).trace ≠ [] ∧
      ∀ j, j < (makeRequest 2 0 (fun _ => .http 429) (fun _ => .ok)).trace.length →
        (makeRequest 2 0 (fun _ => .http 429) (fun _ => .ok)).trace.get? j
          = some ((0 + 2 * j) % 2)) ∧
    (∀ j u, (makeRequest 2 0 (fun _ => .http 429) (fun _ => .ok)).trace.get? j = some u →
      j + 1 < (makeRequest 2 0 (fun _ => .http 429) (fun _ => .ok)).trace.length →
      (fun _ => ReqOutcome.http 429) u ≠ .ok ∧
      (fun _ => ReqOutcome.http 429) u ≠ .http 429 ∧
      (fun _ => ReqOutcome.http 429) u ≠ .http 401) ∧
    ((fun _ => ReqOutcome.http 429) (0 % 2) = .http 429 →
      (makeRequest 2 0 (fun _ => .http 429) (fun _ => .ok)).outcome = .rateLimited ∧
      (makeRequest 2 0 (fun _ => .http 429) (fun _ => .ok)).trace = [0 % 2]) ∧
    (makeRequest 2 0 (fun _ => .http 429) (fun _ => .ok)).outcome ≠ .allFailed502 :=
  claim_C5_amended 2 0 (fun _ => .http 429) (fun _ => .ok) (by decide)

theorem clean_idem_aux :
    ∀ n : Nat,
      (∀ kvs : List (String × Json), sizeOf kvs ≤ n →
        cleanEntries (cleanEntries kvs) = cleanEntries kvs) ∧
      (∀ v : Json, sizeOf v ≤ n → cleanProps (cleanProps v) = cleanProps v) ∧
      (∀ props : List (String × Json), sizeOf props ≤ n →
        cleanPropEntries (cleanPropEntries props) = cleanPropEntries props) ∧
      (∀ v : Json, sizeOf v ≤ n → cleanPropValue (cleanPropValue v) = cleanPropValue v) := by
  intro n
  induction n using Nat.strong_induction_on with
  | _ n ih =>
    refine ⟨?_, ?_, ?_, ?_⟩
    · intro kvs hsize
      cases kvs with
      | nil => rfl
      | cons p rest =>
        obtain ⟨k, v⟩ := p
        have hsz : 1 + (1 + sizeOf k + sizeOf v) + sizeOf rest ≤ n := by
          simpa [List.cons.sizeOf_spec, Prod.mk.sizeOf_spec] using hsize
        have hrest : sizeOf rest < n := by omega
        have hv : sizeOf v < n := by omega
        by_cases hk : SCHEMA_KEYS_TO_REMOVE.contains k = true
        · simp only [cleanEntries, hk, if_true]
          exact (ih (sizeOf rest) hrest).1 rest le_rfl
        · have hk' : SCHEMA_KEYS_TO_REMOVE.contains k = false := by
            simpa using hk
          simp only [cleanEntries, hk', Bool.false_eq_true, if_false]
          rw [(ih (sizeOf rest) hrest).1 rest le_rfl]
          by_cases hp : k = "properties"
          · simp [hp, (ih (sizeOf v) hv).2.1 v le_rfl]
          · simp [hp]
    · intro v hsize
      cases v with
      | obj props =>
        have hp : sizeOf props < n := by
          have := hsize
          simp only [Json.obj.sizeOf_spec] at this
          omega
        simp only [cleanProps]
        rw [(ih (sizeOf props) hp).2.2.1 props le_rfl]
      | null => rfl
      | bool b => rfl
      | num q => rfl
      | str s => rfl
      | arr xs => rfl
    · intro props hsize
      cases props with
      | nil => rfl
      | cons p rest =>
        obtain ⟨k, v⟩ := p
        have hsz : 1 + (1 + sizeOf k + sizeOf v) + sizeOf rest ≤ n := by
          simpa [List.cons.sizeOf_spec, Prod.mk.sizeOf_spec] using hsize
        have hrest : sizeOf rest < n := by omega
        have hv : sizeOf v < n := by omega
        simp only [cleanPropEntries, List.cons.injEq, Prod.mk.injEq, true_and]
        exact ⟨(ih (sizeOf v) hv).2.2.2 v le_rfl, (ih (sizeOf rest) hrest).2.2.1 rest le_rfl⟩
    · intro v hsize
      cases v with
      | obj o =>
        have ho : sizeOf o < n := by
          have := hsize
          simp only [Json.obj.sizeOf_spec] at this
          omega
        simp only [cleanPropValue]
        rw [(ih (sizeOf o) ho).1 o le_rfl]
      | null => rfl
      | bool b => rfl
      | num q => rfl
      | str s => rfl
      | arr xs => rfl

theorem clean_keys_aux :
    ∀ n : Nat,
      (∀ kvs : List (String × Json), sizeOf kvs ≤ n →
        entriesCleanAlongProps (cleanEntries kvs) = true) ∧
      (∀ v : Json, sizeOf v ≤ n → propsValuesClean (cleanProps v) = true) ∧
      (∀ props : List (String × Json), sizeOf props ≤ n →
        propsEntriesClean (cleanPropEntries props) = true) ∧
      (∀ v : Json, sizeOf v ≤ n → propValueClean (cleanPropValue v) = true) := by
  intro n
  induction n using Nat.strong_induction_on with
  | _ n ih =>
    refine ⟨?_, ?_, ?_, ?_⟩
    · intro kvs hsize
      cases kvs with
      | nil => rfl
      | cons p rest =>
        obtain ⟨k, v⟩ := p
        have hsz : 1 + (1 + sizeOf k + sizeOf v) + sizeOf rest ≤ n := by
          simpa [List.cons.sizeOf_spec, Prod.mk.sizeOf_spec] using hsize
        have hrest : sizeOf rest < n := by omega
        have hv : sizeOf v < n := by omega
        by_cases hk : SCHEMA_KEYS_TO_REMOVE.contains k = true
        · simp only [cleanEntries, hk, if_true]
          exact (ih (sizeOf rest) hrest).1 rest le_rfl
        · have hk' : SCHEMA_KEYS_TO_REMOVE.contains k = false := by
            simpa using hk
          simp only [cleanEntries, hk', Bool.false_eq_true, if_false]
          by_cases hp : k = "properties"
          · simp only [hp, if_true, entriesCleanAlongProps, SCHEMA_KEYS_TO_REMOVE]
            simp only [hp] at hk'
            simp [hk', (ih (sizeOf v) hv).2.1 v le_rfl,
              (ih (sizeOf rest) hrest).1 rest le_rfl, SCHEMA_KEYS_TO_REMOVE]
          · simp only [entriesCleanAlongProps, hk', hp, if_false]
            simp [(ih (sizeOf rest) hrest).1 rest le_rfl]
    · intro v hsize
      cases v with
      | obj props =>
        have hp : sizeOf props < n := by
          have := hsize
          simp only [Json.obj.sizeOf_spec] at this
          omega
        simp only [cleanProps, propsValuesClean]
        exact (ih (sizeOf props) hp).2.2.1 props le_rfl
      | null => rfl
      | bool b => rfl
      | num q => rfl
      | str s => rfl
      | arr xs => rfl
    · intro props hsize
      cases props with
      | nil => rfl
      | cons p rest =>
        obtain ⟨k, v⟩ := p
        have hsz : 1 + (1 + sizeOf k + sizeOf v) + sizeOf rest ≤ n := by
          simpa [List.cons.sizeOf_spec, Prod.mk.sizeOf_spec] using hsize
        have hrest : sizeOf rest < n := by omega
        have hv : sizeOf v < n := by omega
        simp only [cleanPropEntries, propsEntriesClean]
        simp [(ih (sizeOf v) hv).2.2.2 v le_rfl, (ih (sizeOf rest) hrest).2.2.1 rest le_rfl]
    · intro v hsize
      cases v with
      | obj o =>
        have ho : sizeOf o < n := by
          have := hsize
          simp only [Json.obj.sizeOf_spec] at this
          omega
        simp only [cleanPropValue, propValueClean]
        exact (ih (sizeOf o) ho).1 o le_rfl
      | null => rfl
      | bool b => rfl
      | num q => rfl
      | str s => rfl
      | arr xs => rfl

/-- C9 counterexample: the cleaner only recurses through `properties`, so a
removed key below any other key survives — here `title` (a removed key) sits
under `items` and is still present in the output at nesting depth 1, refuting
"none of the removed keys appear anywhere in the output, at any nesting
depth". -/
theorem claim_C9_counterexample :
    containsKeyDeep "title"
        (cleanSchema (Json.obj [("items", Json.obj [("title", Json.str "x")])])) = true ∧
    "title" ∈ SCHEMA_KEYS_TO_REMOVE := by
  exact ⟨rfl, by decide⟩

/-- C9 amended: `cleanSchemaForClaude` is idempotent, and the removed keys
({$schema, additionalProperties, strict, default, title, $id, $ref}) are absent
from the output's top level and from every object reached through a chain of
`properties` keys — but they may survive below any other key (`items`,
`anyOf`, …), which the cleaner does not descend into. -/
theorem claim_C9_amended (j : Json) :
    cleanSchema (cleanSchema j) = cleanSchema j ∧
    keysCleanAlongProps (cleanSchema j) = true := by
  cases j with
  | obj kvs =>
    constructor
    · simp only [cleanSchema]
      rw [(clean_idem_aux (sizeOf kvs)).1 kvs le_rfl]
    · simp only [cleanSchema, keysCleanAlongProps]
      exact (clean_keys_aux (sizeOf kvs)).1 kvs le_rfl
  | null => exact ⟨rfl, rfl⟩
  | bool b => exact ⟨rfl, rfl⟩
  | num q => exact ⟨rfl, rfl⟩
  | str s => exact ⟨rfl, rfl⟩
  | arr xs => exact ⟨rfl, rfl⟩

theorem extractStep_eq (acc : ExtractResult) (p : RPart) :
    extractStep acc p =
      ⟨acc.content ++ (if p.thought = false then p.text else ""),
       acc.reasoningContent ++ (if p.thought = true then p.text else ""),
       acc.toolCalls ++ (match p.functionCall with
         | some fc => [mkToolCall fc]
         | none => [])⟩ := by
  unfold extractStep
  by_cases ht : p.text = "" <;>
    cases hth : p.thought <;> cases hfc : p.functionCall <;> simp [ht, hth, hfc]

theorem extract_foldl (parts : List RPart) :
    ∀ acc : ExtractResult,
      parts.foldl extractStep acc =
        ⟨acc.content ++ partsContent parts, acc.reasoningContent ++ partsReasoning parts,
         acc.toolCalls ++ partsToolCalls parts⟩ := by
  induction parts with
  | nil => intro acc; simp [partsContent, partsReasoning, partsToolCalls]
  | cons p rest ih =>
    intro acc
    rw [List.foldl_cons, extractStep_eq, ih]
    cases hfc : p.functionCall <;>
      simp [partsContent, partsReasoning, partsToolCalls, hfc, String.append_assoc,
        List.append_assoc]

theorem extractContent_eq (parts : List RPart) :
    extractContent parts =
      ⟨partsContent parts, partsReasoning parts, partsToolCalls parts⟩ := by
  unfold extractContent
  rw [extract_foldl]
  simp

theorem extractStreamStep_proj (acc : ExtractStreamResult) (p : RPart) :
    (extractStreamStep acc p).content = acc.content ++ (if p.thought = false then p.text else "") ∧
    (extractStreamStep acc p).reasoningContent
      = acc.reasoningContent ++ (if p.thought = true then p.text else "") ∧
    (extractStreamStep acc p).toolCalls
      = acc.toolCalls ++ (match p.functionCall with
        | some fc => [mkToolCall fc]
        | none => []) := by
  unfold extractStreamStep
  by_cases ht : p.text = "" <;> by_cases hs : p.thoughtSignature = "" <;>
    cases hth : p.thought <;> cases hfc : p.functionCall <;> simp [ht, hs, hth, hfc]

theorem extractStream_foldl (parts : List RPart) :
    ∀ acc : ExtractStreamResult,
      (parts.foldl extractStreamStep acc).content = acc.content ++ partsContent parts ∧
      (parts.foldl extractStreamStep acc).reasoningContent
        = acc.reasoningContent ++ partsReasoning parts ∧
      (parts.foldl extractStreamStep acc).toolCalls = acc.toolCalls ++ partsToolCalls parts := by
  induction parts with
  | nil => intro acc; simp [partsContent, partsReasoning, partsToolCalls]
  | cons p rest ih =>
    intro acc
    rw [List.foldl_cons]
    obtain ⟨h1, h2, h3⟩ := ih (extractStreamStep acc p)
    obtain ⟨g1, g2, g3⟩ := extractStreamStep_proj acc p
    refine ⟨?_, ?_, ?_⟩
    · rw [h1, g1]
      simp [partsContent, String.append_assoc]
    · rw [h2, g2]
      simp [partsReasoning, String.append_assoc]
    · rw [h3, g3]
      cases hfc : p.functionCall <;> simp [partsToolCalls, hfc, List.append_assoc]

theorem extractStreamContent_proj (parts : List RPart) :
    (extractStreamContent parts).content = partsContent parts ∧
    (extractStreamContent parts).reasoningContent = partsReasoning parts ∧
    (extractStreamContent parts).toolCalls = partsToolCalls parts := by
  obtain ⟨h1, h2, h3⟩ := extractStream_foldl parts ⟨"", "", "", []⟩
  exact ⟨by simpa using h1, by simpa using h2, by simpa using h3⟩

theorem partsContent_append (l1 l2 : List RPart) :
    partsContent (l1 ++ l2) = partsContent l1 ++ partsContent l2 := by
  induction l1 with
  | nil => simp [partsContent]
  | cons p rest ih => simp [partsContent, ih, String.append_assoc]

theorem partsReasoning_append (l1 l2 : List RPart) :
    partsReasoning (l1 ++ l2) = partsReasoning l1 ++ partsReasoning l2 := by
  induction l1 with
  | nil => simp [partsReasoning]
  | cons p rest ih => simp [partsReasoning, ih, String.append_assoc]

theorem partsToolCalls_append (l1 l2 : List RPart) :
    partsToolCalls (l1 ++ l2) = partsToolCalls l1 ++ partsToolCalls l2 := by
  induction l1 with
  | nil => simp [partsToolCalls]
  | cons p rest ih =>
    cases hfc : p.functionCall <;> simp [partsToolCalls, hfc, ih]

theorem mkToolDeltas_append (n : Nat) (l1 l2 : List ToolCallResponse) :
    mkToolDeltas n (l1 ++ l2) = mkToolDeltas n l1 ++ mkToolDeltas (n + l1.length) l2 := by
  induction l1 generalizing n with
  | nil => simp [mkToolDeltas]
  | cons tc rest ih =>
    simp only [List.cons_append, mkToolDeltas, List.length_cons, List.append_eq]
    rw [ih (n + 1)]
    have harith : n + 1 + rest.length = n + (rest.length + 1) := by omega
    rw [harith]

theorem enumPairs_append (n : Nat) (l1 l2 : List ToolCallResponse) :
    enumPairs n (l1 ++ l2) = enumPairs n l1 ++ enumPairs (n + l1.length) l2 := by
  induction l1 generalizing n with
  | nil => simp [enumPairs]
  | cons tc rest ih =>
    simp only [List.cons_append, enumPairs, List.length_cons, List.append_eq]
    rw [ih (n + 1)]
    have harith : n + 1 + rest.length = n + (rest.length + 1) := by omega
    rw [harith]

theorem mkToolDeltas_indices (n : Nat) (l : List ToolCallResponse) :
    (mkToolDeltas n l).map (fun d => d.index) = List.range' n l.length := by
  induction l generalizing n with
  | nil => simp [mkToolDeltas]
  | cons tc rest ih => simp [mkToolDeltas, ih, List.range']

theorem natMapGet_none (m : List (Nat × ToolCallResponse)) (k : Nat)
    (h : ∀ p ∈ m, p.1 < k) : natMapGet m k = none := by
  induction m with
  | nil => rfl
  | cons p rest ih =>
    have hp : p.1 < k := h p (by simp)
    have hb : (p.1 == k) = false := by
      simp only [beq_eq_false_iff_ne]
      omega
    have hrest := ih (fun q hq => h q (by simp [hq]))
    simpa [natMapGet, List.find?, hb] using hrest

theorem natMapSet_append (k : Nat) (v : ToolCallResponse) :
    ∀ m : List (Nat × ToolCallResponse), (∀ p ∈ m, p.1 < k) →
      natMapSet k v m = m ++ [(k, v)] := by
  intro m
  induction m with
  | nil => intro _; rfl
  | cons p rest ih =>
    intro h
    obtain ⟨k', v'⟩ := p
    have hp : k' < k := h (k', v') (by simp)
    have hne : k' ≠ k := by omega
    simp [natMapSet, hne, ih (fun q hq => h q (by simp [hq]))]

theorem accumulateFold (tcs : List ToolCallResponse) :
    ∀ acc : StreamAccumulator, (∀ p ∈ acc.toolCalls, p.1 < acc.toolIdx) →
      (tcs.foldl accumulateToolCall acc).toolIdx = acc.toolIdx + tcs.length ∧
      (tcs.foldl accumulateToolCall acc).toolCalls
        = acc.toolCalls ++ enumPairs acc.toolIdx tcs ∧
      (∀ p ∈ (tcs.foldl accumulateToolCall acc).toolCalls,
        p.1 < (tcs.foldl accumulateToolCall acc).toolIdx) := by
  induction tcs with
  | nil => intro acc h; simpa [enumPairs] using h
  | cons tc rest ih =>
    intro acc h
    have hget : natMapGet acc.toolCalls acc.toolIdx = none := natMapGet_none _ _ h
    have hset : natMapSet acc.toolIdx tc acc.toolCalls = acc.toolCalls ++ [(acc.toolIdx, tc)] :=
      natMapSet_append _ _ _ h
    have hstep : accumulateToolCall acc tc =
        { acc with
          toolCalls := acc.toolCalls ++ [(acc.toolIdx, tc)]
          toolIdx := acc.toolIdx + 1 } := by
      unfold accumulateToolCall
      rw [hget, hset]
    have hinv' : ∀ p ∈ (accumulateToolCall acc tc).toolCalls,
        p.1 < (accumulateToolCall acc tc).toolIdx := by
      rw [hstep]
      intro p hp
      simp only [List.mem_append, List.mem_singleton] at hp
      rcases hp with hp | hp
      · have := h p hp
        simp only
        omega
      · subst hp
        simp only
        omega
    obtain ⟨i1, i2, i3⟩ := ih (accumulateToolCall acc tc) hinv'
    refine ⟨?_, ?_, ?_⟩
    · rw [List.foldl_cons, i1, hstep]
      simp only [List.length_cons]
      omega
    · rw [List.foldl_cons, i2, hstep]
      simp [enumPairs, List.append_assoc]
    · rw [List.foldl_cons]
      exact i3

theorem accumulateChunkText_proj (ex : ExtractStreamResult) (acc : StreamAccumulator) :
    (accumulateChunkText ex acc).toolCalls = acc.toolCalls ∧
    (accumulateChunkText ex acc).toolIdx = acc.toolIdx := by
  unfold accumulateChunkText
  by_cases h1 : ex.content = "" <;> by_cases h2 : ex.reasoningContent = "" <;>
    by_cases h3 : ex.thoughtSignature = "" <;> simp [h1, h2, h3]

theorem accumulateChunk_spec (ex : ExtractStreamResult) (acc : StreamAccumulator)
    (h : ∀ p ∈ acc.toolCalls, p.1 < acc.toolIdx) :
    (accumulateChunk ex acc).toolIdx = acc.toolIdx + ex.toolCalls.length ∧
    (accumulateChunk ex acc).toolCalls = acc.toolCalls ++ enumPairs acc.toolIdx ex.toolCalls ∧
    (∀ p ∈ (accumulateChunk ex acc).toolCalls, p.1 < (accumulateChunk ex acc).toolIdx) := by
  obtain ⟨ht1, ht2⟩ := accumulateChunkText_proj ex acc
  unfold accumulateChunk
  by_cases h4 : ex.toolCalls = []
  · simp only [h4, ne_eq, not_true_eq_false, if_false, enumPairs, List.length_nil,
      Nat.add_zero, List.append_nil]
    exact ⟨ht2, ht1, by rw [ht1, ht2]; exact h⟩
  · simp only [ne_eq, h4, not_false_eq_true, if_true]
    obtain ⟨f1, f2, f3⟩ := accumulateFold ex.toolCalls
      { accumulateChunkText ex acc with
        hasToolCalls := true
        accumulatedFinishReason := some "tool_calls" }
      (by simpa [ht1, ht2] using h)
    refine ⟨?_, ?_, f3⟩
    · rw [f1]
      simp [ht2]
    · rw [f2]
      simp [ht1, ht2]

theorem applyChunkFinishReason_proj (fr : Option String) (acc : StreamAccumulator) :
    (applyChunkFinishReason fr acc).toolCalls = acc.toolCalls ∧
    (applyChunkFinishReason fr acc).toolIdx = acc.toolIdx := by
  unfold applyChunkFinishReason
  cases fr with
  | none => exact ⟨rfl, rfl⟩
  | some r =>
    by_cases hn : acc.accumulatedFinishReason = none <;> simp [hn]

theorem buildDelta_content (isFirst : Bool) (ex : ExtractStreamResult)
    (acc : StreamAccumulator) :
    (buildDelta isFirst ex acc).content.getD "" = ex.content := by
  unfold buildDelta
  by_cases hc : ex.content = "" <;> simp [hc]

theorem buildDelta_reasoning (isFirst : Bool) (ex : ExtractStreamResult)
    (acc : StreamAccumulator) :
    (buildDelta isFirst ex acc).reasoningContent.getD "" = ex.reasoningContent := by
  unfold buildDelta
  by_cases hc : ex.reasoningContent = "" <;> simp [hc]

theorem buildDelta_toolCalls (isFirst : Bool) (ex : ExtractStreamResult)
    (acc : StreamAccumulator) :
    (buildDelta isFirst ex acc).toolCalls
      = mkToolDeltas (acc.toolIdx - ex.toolCalls.length) ex.toolCalls := by
  unfold buildDelta
  by_cases hc : ex.toolCalls = [] <;> simp [hc, mkToolDeltas]

/-- Behaviour of one `transformStreamChunk` call, relative to the parts the
chunk carries: the emitted delta reproduces exactly the chunk's non-thought
text, thought text, and function calls (the latter at indices continuing the
accumulator's running `toolIdx`), and the accumulator advances `toolIdx` by
the number of function-call parts, appending them to its map at fresh keys. -/
theorem transformChunk_spec (c : UChunk) (isFirst : Bool) (acc : StreamAccumulator)
    (h : ∀ p ∈ acc.toolCalls, p.1 < acc.toolIdx) :
    ((transformStreamChunk c isFirst acc).1.elim "" (fun o => o.delta.content.getD "")
        = partsContent (chunkParts c)) ∧
    ((transformStreamChunk c isFirst acc).1.elim "" (fun o => o.delta.reasoningContent.getD "")
        = partsReasoning (chunkParts c)) ∧
    ((transformStreamChunk c isFirst acc).1.elim [] (fun o => o.delta.toolCalls)
        = mkToolDeltas acc.toolIdx (partsToolCalls (chunkParts c))) ∧
    ((transformStreamChunk c isFirst acc).2.toolIdx
        = acc.toolIdx + (partsToolCalls (chunkParts c)).length) ∧
    ((transformStreamChunk c isFirst acc).2.toolCalls
        = acc.toolCalls ++ enumPairs acc.toolIdx (partsToolCalls (chunkParts c))) ∧
    (∀ p ∈ (transformStreamChunk c isFirst acc).2.toolCalls,
      p.1 < (transformStreamChunk c isFirst acc).2.toolIdx) := by
  unfold transformStreamChunk
  cases hcand : c.candidate with
  | none =>
    by_cases hu : chunkHasUsage c = true
    · simp [hu, chunkParts, hcand, partsContent, partsReasoning, partsToolCalls,
        mkToolDeltas, enumPairs]
      exact fun a b hab => h (a, b) hab
    · simp [hu, chunkParts, hcand, partsContent, partsReasoning, partsToolCalls,
        mkToolDeltas, enumPairs]
      exact fun a b hab => h (a, b) hab
  | some cand =>
    obtain ⟨e1, e2, e3⟩ := extractStreamContent_proj cand.parts
    obtain ⟨a1, a2, a3⟩ := accumulateChunk_spec (extractStreamContent cand.parts) acc h
    obtain ⟨p1, p2⟩ :=
      applyChunkFinishReason_proj cand.finishReason (accumulateChunk (extractStreamContent cand.parts) acc)
    have hparts : chunkParts c = cand.parts := by simp [chunkParts, hcand]
    have hidx : (applyChunkFinishReason cand.finishReason
        (accumulateChunk (extractStreamContent cand.parts) acc)).toolIdx
        = acc.toolIdx + (extractStreamContent cand.parts).toolCalls.length := by
      rw [p2, a1]
    have htd : (buildDelta isFirst (extractStreamContent cand.parts)
          (applyChunkFinishReason cand.finishReason
            (accumulateChunk (extractStreamContent cand.parts) acc))).toolCalls
        = mkToolDeltas acc.toolIdx (partsToolCalls cand.parts) := by
      rw [buildDelta_toolCalls, hidx]
      have : acc.toolIdx + (extractStreamContent cand.parts).toolCalls.length -
          (extractStreamContent cand.parts).toolCalls.length = acc.toolIdx := by omega
      rw [this, e3]
    by_cases hu : chunkHasUsage c = true <;>
      simp only [hu, if_true, if_false, Bool.false_eq_true, Option.elim_some, hparts] <;>
      exact ⟨by rw [buildDelta_content, e1],
        by rw [buildDelta_reasoning, e2],
        htd,
        by rw [hidx, e3],
        by rw [p1, a2, e3],
        by
          intro p hp
          rw [p1] at hp
          rw [p2]
          exact a3 p hp⟩

/-- `transformStreamChunk` emits nothing exactly for a candidate-less chunk
without usage, which carries no parts and leaves the accumulator untouched. -/
theorem transformChunk_none_case (c : UChunk) (isFirst : Bool)
    (acc acc' : StreamAccumulator)
    (hr : transformStreamChunk c isFirst acc = (none, acc')) :
    chunkParts c = [] ∧ acc' = acc := by
  unfold transformStreamChunk at hr
  cases hcand : c.candidate with
  | none =>
    rw [hcand] at hr
    by_cases hu : chunkHasUsage c = true
    · simp [hu] at hr
    · simp only [hu, Bool.false_eq_true, if_false, Prod.mk.injEq] at hr
      exact ⟨by simp [chunkParts, hcand], hr.2.symm⟩
  | some cand =>
    rw [hcand] at hr
    by_cases hu : chunkHasUsage c = true <;> simp [hu] at hr

theorem runOpenAIStreamGo_spec (chunks : List UChunk) :
    ∀ (isFirst : Bool) (acc : StreamAccumulator), (∀ p ∈ acc.toolCalls, p.1 < acc.toolIdx) →
      concatContents (runOpenAIStreamGo chunks isFirst acc) = partsContent (streamParts chunks) ∧
      concatReasonings (runOpenAIStreamGo chunks isFirst acc)
        = partsReasoning (streamParts chunks) ∧
      toolDeltasOf (runOpenAIStreamGo chunks isFirst acc)
        = mkToolDeltas acc.toolIdx (partsToolCalls (streamParts chunks)) ∧
      (runOpenAIStreamAcc chunks isFirst acc).toolCalls
        = acc.toolCalls ++ enumPairs acc.toolIdx (partsToolCalls (streamParts chunks)) := by
  induction chunks with
  | nil =>
    intro isFirst acc h
    by_cases hc : acc.isComplete = true <;>
      simp [runOpenAIStreamGo, runOpenAIStreamAcc, hc, streamParts, partsContent,
        partsReasoning, partsToolCalls, concatContents, concatReasonings, toolDeltasOf,
        mkToolDeltas, enumPairs, createFinalChunk]
  | cons c rest ih =>
    intro isFirst acc h
    obtain ⟨s1, s2, s3, s4, s5, s6⟩ := transformChunk_spec c isFirst acc h
    cases hr : transformStreamChunk c isFirst acc with
    | mk o acc' =>
      cases o with
      | none =>
        obtain ⟨hcp, hacc⟩ := transformChunk_none_case c isFirst acc acc' hr
        subst hacc
        obtain ⟨i1, i2, i3, i4⟩ := ih isFirst _ h
        simp only [runOpenAIStreamGo, runOpenAIStreamAcc, hr]
        simp [streamParts, hcp, i1, i2, i3, i4]
      | some oc =>
        rw [hr] at s1 s2 s3 s4 s5 s6
        simp only [Option.elim_some] at s1 s2 s3
        have s4' : acc'.toolIdx = acc.toolIdx + (partsToolCalls (chunkParts c)).length := s4
        have s5' : acc'.toolCalls
            = acc.toolCalls ++ enumPairs acc.toolIdx (partsToolCalls (chunkParts c)) := s5
        obtain ⟨i1, i2, i3, i4⟩ := ih false acc' s6
        simp only [runOpenAIStreamGo, runOpenAIStreamAcc, hr]
        refine ⟨?_, ?_, ?_, ?_⟩
        · simp only [concatContents, streamParts, partsContent_append, i1, s1]
        · simp only [concatReasonings, streamParts, partsReasoning_append, i2, s2]
        · simp only [toolDeltasOf, streamParts, partsToolCalls_append, i3, s3,
            mkToolDeltas_append, s4']
        · simp only [streamParts, partsToolCalls_append, i4, s5', s4', enumPairs_append,
            List.append_assoc]

/-- C6: for every upstream chunk sequence, the OpenAI stream emitted by the
service concatenates — across all emitted chunks — `delta.content` to exactly
the `content` of the unary transform of the response holding the same parts in
the same order; the same holds for `reasoning_content`; and the stream's
tool-call deltas are, index by index from 0, exactly the unary transform's
tool calls with the same arguments strings (ids and names included). -/
theorem claim_C6 (chunks : List UChunk) :
    concatContents (runOpenAIStream chunks)
      = (extractContent (streamParts chunks)).content ∧
    concatReasonings (runOpenAIStream chunks)
      = (extractContent (streamParts chunks)).reasoningContent ∧
    toolDeltasOf (runOpenAIStream chunks)
      = mkToolDeltas 0 (extractContent (streamParts chunks)).toolCalls := by
  obtain ⟨h1, h2, h3, _⟩ :=
    runOpenAIStreamGo_spec chunks true createStreamAccumulator (by simp [createStreamAccumulator])
  rw [extractContent_eq]
  exact ⟨h1, h2, h3⟩

/-- C7 counterexample: one logical tool call — same upstream id `call_1` —
split across two chunks (arguments `argA` then `argB`) yields two distinct
`tool_calls` delta entries at indices 0 and 1; the index is not stable across
the chunks, and no entry accumulates the concatenated arguments `argAargB`. -/
theorem claim_C7_counterexample :
    toolDeltasOf (runOpenAIStream [c7Chunk1, c7Chunk2]) =
      [⟨0, some "call_1", "f", "argA"⟩, ⟨1, some "call_1", "f", "argB"⟩] ∧
    (∀ d ∈ toolDeltasOf (runOpenAIStream [c7Chunk1, c7Chunk2]),
      d.argsJson ≠ "argA" ++ "argB") := by
  constructor
  · rfl
  · decide

/-- C7 amended: every upstream `functionCall` part produces its own
`tool_calls` delta entry with a fresh, unique index — the running count of
function-call parts — and the accumulation branch never fires: after the whole
stream the accumulator map holds exactly one entry per function-call part,
keyed consecutively from 0, each carrying only that part's arguments.  Chunks
belonging to the same logical tool call therefore do not share an index and
their arguments are never concatenated. -/
theorem claim_C7_amended (chunks : List UChunk) :
    (toolDeltasOf (runOpenAIStream chunks)).map (fun d => d.index)
      = List.range (extractContent (streamParts chunks)).toolCalls.length ∧
    (runOpenAIStreamAcc chunks true createStreamAccumulator).toolCalls
      = enumPairs 0 (extractContent (streamParts chunks)).toolCalls := by
  obtain ⟨_, _, h3, h4⟩ :=
    runOpenAIStreamGo_spec chunks true createStreamAccumulator (by simp [createStreamAccumulator])
  rw [extractContent_eq]
  constructor
  · show (toolDeltasOf (runOpenAIStream chunks)).map (fun d => d.index) = _
    rw [show runOpenAIStream chunks = runOpenAIStreamGo chunks true createStreamAccumulator
      from rfl]
    rw [h3]
    have hz : createStreamAccumulator.toolIdx = 0 := rfl
    rw [hz, mkToolDeltas_indices, List.range_eq_range']
  · have h4' : (runOpenAIStreamAcc chunks true createStreamAccumulator).toolCalls
        = [] ++ enumPairs 0 (partsToolCalls (streamParts chunks)) := h4
    simpa using h4'

/-- C8 counterexample: a stream with one `functionCall` chunk and no
usage-bearing chunk.  The tool block is stopped when it is created
(`content_block_stop 0`), and the synthesized closing sequence at upstream end
stops it again — `content_block_stop 0` is emitted twice — so the closing is
not "content_block_stop for every open non-tool block (and no block that was
already stopped)", and it is not identical to the usage-chunk closing, which
skips tool blocks. -/
theorem claim_C8_counterexample :
    (runAnthropicStream [c8Chunk]).count (AEvent.contentBlockStop 0) = 2 ∧
    runAnthropicStream [c8Chunk] =
      [.messageStart, .contentBlockStart 0 (.toolUse (some "t1") "f" ""),
       .contentBlockDelta 0 (.inputJsonDelta "argT"), .contentBlockStop 0,
       .contentBlockStop 0, .messageDelta "tool_use" 0, .messageStop] := by
  exact ⟨by decide, by decide⟩

/-- C8 amended: the closing emitted by a usage-bearing chunk that carries a
candidate ends with `content_block_stop` for every non-tool block up to
`currentBlockIndex` (tool blocks, already stopped at creation, are skipped),
then `message_delta` with the final stop reason and output tokens, then
`message_stop`; a usage-bearing chunk without a candidate emits no
`content_block_stop` at all — only `message_delta` then `message_stop`; and
when the upstream ends without a usage-bearing chunk, the synthesized closing
stops every block up to `currentBlockIndex` including tool blocks that were
already stopped, then `message_delta` and `message_stop`. -/
theorem claim_C8_amended :
    (∀ (chunk : UChunk) (acc : AAcc) (isFirst : Bool) (cand : UCandidate),
      chunk.candidate = some cand → chunkHasUsage chunk = true →
      ∃ pre acc', anthropicTransformStreamChunk chunk acc isFirst
          = (pre ++ nonToolStops acc' ++
              [.messageDelta (determineFinalStopReason acc') acc'.outputTokens, .messageStop],
             acc') ∧ acc'.isComplete = true) ∧
    (∀ (chunk : UChunk) (acc : AAcc) (isFirst : Bool),
      chunk.candidate = none → chunkHasUsage chunk = true →
      ∃ acc', anthropicTransformStreamChunk chunk acc isFirst
          = ((if isFirst then [AEvent.messageStart] else []) ++
              [.messageDelta (determineFinalStopReason acc') acc'.outputTokens, .messageStop],
             acc') ∧ acc'.isComplete = true) ∧
    (∀ acc : AAcc, acc.isComplete = false →
      createFinalEvents acc
        = allStops acc ++
            [.messageDelta (determineFinalStopReason acc) acc.outputTokens, .messageStop]) := by
  refine ⟨?_, ?_, ?_⟩
  · intro chunk acc isFirst cand hcand hu
    unfold anthropicTransformStreamChunk
    simp only [hcand, hu, if_true]
    exact ⟨_, _, rfl, rfl⟩
  · intro chunk acc isFirst hcand hu
    unfold anthropicTransformStreamChunk
    simp only [hcand, hu, if_true]
    exact ⟨_, rfl, rfl⟩
  · intro acc h
    unfold createFinalEvents
    simp [h]

/-- Witness for the amended C8: a usage-bearing candidate chunk, a
usage-only chunk, and an incomplete accumulator, each at the fresh state. -/
theorem claim_C8_amended_witness :
    (∃ pre acc', anthropicTransformStreamChunk
        ⟨some ⟨[], some "STOP"⟩, some ⟨3, 5, 8⟩⟩ createAnthropicAccumulator true
        = (pre ++ nonToolStops acc' ++
            [.messageDelta (determineFinalStopReason acc') acc'.outputTokens, .messageStop],
           acc') ∧ acc'.isComplete = true) ∧
    (∃ acc', anthropicTransformStreamChunk ⟨none, some ⟨3, 5, 8⟩⟩
        createAnthropicAccumulator true
        = ((if true then [AEvent.messageStart] else []) ++
            [.messageDelta (determineFinalStopReason acc') acc'.outputTokens, .messageStop],
           acc') ∧ acc'.isComplete = true) ∧
    (createFinalEvents createAnthropicAccumulator
      = allStops createAnthropicAccumulator ++
          [.messageDelta (determineFinalStopReason createAnthropicAccumulator)
            createAnthropicAccumulator.outputTokens, .messageStop]) :=
  ⟨claim_C8_amended.1 ⟨some ⟨[], some "STOP"⟩, some ⟨3, 5, 8⟩⟩ createAnthropicAccumulator
      true ⟨[], some "STOP"⟩ rfl (by decide),
   claim_C8_amended.2.1 ⟨none, some ⟨3, 5, 8⟩⟩ createAnthropicAccumulator true rfl (by decide),
   claim_C8_amended.2.2 createAnthropicAccumulator rfl⟩

end Antigravity
